import Mathlib

/-!
Joint-trajectory sequencing of `control_robot`.

A shallow embedding of the two arm-control programs
`src/backend/test_files/test2/test.cpp` and
`src/backend/test_files/test2/test123.cpp`.

* C++ `float` values are elements of an arbitrary linearly ordered field `K`
  (instantiate `K := ℚ` to compute, `K := ℝ` to use the real power function). The
  loops come in two versions: one in which every operation is exact, used for the
  frame layout, the authority, the number of frames and the formula of a step;
  and one in which every operation is followed by a rounding `rnd` (names ending in
  `R`), used wherever the value that a `float` computation reaches matters.
  `round32` is the rounding of binary32.
* `std::pow` is a library function whose value is not rational in general; every
  definition that calls it takes it as the parameter `pow`.
* `int` values are `Int`; `int / int` is truncating division `Int.tdiv`.
* `msg.motor_cmd()` is an array of 20 motor commands, `Fin 20 → MotorCmd K`.
* `arm_sdk_publisher->Write(msg)` appends the current message to the list of
  written frames; `sleep_for` has no effect on the data and is modelled separately.
-/

namespace ControlRobot

/-- The enumeration `JointIndex` (the same in both programs). -/
inductive JointIndex
  | kRightHipYaw
  | kRightHipRoll
  | kRightHipPitch
  | kRightKnee
  | kRightAnkle
  | kLeftHipYaw
  | kLeftHipRoll
  | kLeftHipPitch
  | kLeftKnee
  | kLeftAnkle
  | kWaistYaw
  | kNotUsedJoint
  | kRightShoulderPitch
  | kRightShoulderRoll
  | kRightShoulderYaw
  | kRightElbow
  | kLeftShoulderPitch
  | kLeftShoulderRoll
  | kLeftShoulderYaw
  | kLeftElbow
  deriving DecidableEq, Repr

/-- The value of each enumerator, used as index into `motor_cmd()`. -/
def JointIndex.toFin : JointIndex → Fin 20
  | .kRightHipYaw => 8
  | .kRightHipRoll => 0
  | .kRightHipPitch => 1
  | .kRightKnee => 2
  | .kRightAnkle => 11
  | .kLeftHipYaw => 7
  | .kLeftHipRoll => 3
  | .kLeftHipPitch => 4
  | .kLeftKnee => 5
  | .kLeftAnkle => 10
  | .kWaistYaw => 6
  | .kNotUsedJoint => 9
  | .kRightShoulderPitch => 12
  | .kRightShoulderRoll => 13
  | .kRightShoulderYaw => 14
  | .kRightElbow => 15
  | .kLeftShoulderPitch => 16
  | .kLeftShoulderRoll => 17
  | .kLeftShoulderYaw => 18
  | .kLeftElbow => 19

/-- The array `arm_joints` of `main` (the same in both programs). -/
def arm_joints : Fin 9 → JointIndex :=
  ![JointIndex.kLeftShoulderPitch, JointIndex.kLeftShoulderRoll,
    JointIndex.kLeftShoulderYaw, JointIndex.kLeftElbow,
    JointIndex.kRightShoulderPitch, JointIndex.kRightShoulderRoll,
    JointIndex.kRightShoulderYaw, JointIndex.kRightElbow, JointIndex.kWaistYaw]

/-- The fields of one `motor_cmd()` element that the programs write. -/
structure MotorCmd (K : Type) where
  q : K
  dq : K
  kp : K
  kd : K
  tau : K
  deriving DecidableEq, Repr

/-- A pose, `std::array<float, 9>`. -/
abbrev Pose (K : Type) := Fin 9 → K

/-- The outbound message, seen through `msg.motor_cmd()`. -/
abbrev LowCmd (K : Type) := Fin 20 → MotorCmd K

/-- What a block of the program leaves behind: the frames handed to
`arm_sdk_publisher->Write` (oldest first), and the final values of
`current_jpos_des`, `msg` and `weight`. -/
structure Run (K : Type) where
  written : List (LowCmd K)
  current_jpos_des : Pose K
  msg : LowCmd K
  weight : K

section Programs

variable {K : Type} [LinearOrderedField K]

/-- The call `std::clamp(v, lo, hi)`. -/
def clamp (v lo hi : K) : K :=
  if v < lo then lo else if hi < v then hi else v

/-- The statement `msg.motor_cmd().at(idx).q(w)`. -/
def setQ (msg : LowCmd K) (idx : JointIndex) (w : K) : LowCmd K :=
  Function.update msg idx.toFin
    (MotorCmd.mk w (msg idx.toFin).dq (msg idx.toFin).kp (msg idx.toFin).kd (msg idx.toFin).tau)

/-- The five writes `q`, `dq`, `kp`, `kd`, `tau` to `msg.motor_cmd().at(idx)`. -/
def setCmd (msg : LowCmd K) (idx : JointIndex) (q dq kp kd tau : K) : LowCmd K :=
  Function.update msg idx.toFin (MotorCmd.mk q dq kp kd tau)

/-! ### `test.cpp` -/

/-- One pass of the inner loop `for (size_t j = 0; j < 9; ++j)` of
`updateJointPositions` (lines 95-105), with `kp = 60`, `kd = 1.5`, `dq = 0`,
`tau_ff = 1`. -/
def jointStep (arm_joints : Fin 9 → JointIndex) (initial_jpos deltas : Pose K) (s : K)
    (st : Pose K × LowCmd K) (j : Fin 9) : Pose K × LowCmd K :=
  let desired := initial_jpos j + deltas j * s
  let cur := Function.update st.1 j desired
  (cur, setCmd st.2 (arm_joints j) (cur j) 0 60 (3 / 2) 1)

/-- The normalised time `t` of step `i` (lines 83-84). -/
def easeT (num_time_steps : Int) (i : Nat) : K :=
  if num_time_steps ≤ 1 then 1 else (i : K) / ((num_time_steps - 1 : Int) : K)

/-- The authority update of step `i` (lines 88-94): returns the new `weight`
and message. -/
def weightStep (num_time_steps : Int) (start_stop : Int) (i : Nat)
    (weight : K) (msg : LowCmd K) : K × LowCmd K :=
  if start_stop = 1 then
    let w : K := 1 * ((Int.tdiv ((i : Int) + 1) num_time_steps : Int) : K)
    (w, setQ msg JointIndex.kNotUsedJoint w)
  else if start_stop = 2 then
    let w : K := 1 * (1 - (i : K) / (num_time_steps : K))
    (w, setQ msg JointIndex.kNotUsedJoint w)
  else (weight, msg)

/-- The body of the loop `for (int i = 0; i < num_time_steps; ++i)` of
`updateJointPositions` (lines 82-108). -/
def tick (pow : K → K → K) (num_time_steps : Int) (initial_jpos deltas : Pose K)
    (phase_koef : K) (arm_joints : Fin 9 → JointIndex) (start_stop : Int)
    (st : Run K) (i : Nat) : Run K :=
  let t : K := easeT num_time_steps i
  let s := pow t phase_koef
  let wm := weightStep num_time_steps start_stop i st.weight st.msg
  let pm := (List.finRange 9).foldl (jointStep arm_joints initial_jpos deltas s)
    (st.current_jpos_des, wm.2)
  Run.mk (st.written ++ [pm.2]) pm.1 pm.2 wm.1

/-- The state of `updateJointPositions` after the first `n` passes of its loop. -/
def ticks (pow : K → K → K) (num_time_steps : Int) (initial_jpos deltas : Pose K)
    (phase_koef : K) (arm_joints : Fin 9 → JointIndex) (start_stop : Int)
    (st : Run K) (n : Nat) : Run K :=
  (List.range n).foldl
    (tick pow num_time_steps initial_jpos deltas phase_koef arm_joints start_stop) st

/-- The function `updateJointPositions` of `test.cpp` (lines 59-110). -/
def updateJointPositions (pow : K → K → K) (num_time_steps : Int)
    (target_position current_jpos_des : Pose K) (phase_koef : K) (msg : LowCmd K)
    (arm_joints : Fin 9 → JointIndex) (start_stop : Int) : Run K :=
  let initial_jpos : Pose K := current_jpos_des
  let weight : K := if start_stop = 1 then 0 else if start_stop = 2 then 1 else 0
  let deltas : Pose K := fun j => target_position j - initial_jpos j
  ticks pow num_time_steps initial_jpos deltas phase_koef arm_joints start_stop
    (Run.mk [] current_jpos_des msg weight) num_time_steps.toNat

/-! ### `test123.cpp` -/

/-- One pass of the loop `for j` that moves `current_jpos_des` towards the target
by at most `bound j` (lines 378-385). -/
def clampStep (target bound : Pose K) (cur : Pose K) (j : Fin 9) : Pose K :=
  Function.update cur j (cur j + clamp (target j - cur j) (-bound j) (bound j))

/-- One pass of the loop `for j` that prepares the packet (lines 387-394), with
`kp = 60`, `kd = 1.5`, `dq = 0`, `tau_ff = 0`. -/
def packStep (arm_joints : Fin 9 → JointIndex) (cur : Pose K) (msg : LowCmd K)
    (j : Fin 9) : LowCmd K :=
  setCmd msg (arm_joints j) (cur j) 0 60 (3 / 2) 0

/-- The body of the loop `for (int i = 0; i < num_time_steps; ++i)` of a clamp
segment (lines 375-399): update the desired pose, prepare the packet, write it. -/
def clampTick (target bound : Pose K) (arm_joints : Fin 9 → JointIndex)
    (st : Run K) : Run K :=
  let cur := (List.finRange 9).foldl (clampStep target bound) st.current_jpos_des
  let msg := (List.finRange 9).foldl (packStep arm_joints cur) st.msg
  Run.mk (st.written ++ [msg]) cur msg st.weight

/-- The state after `n` passes of the loop of a clamp segment. -/
def clampTicks (target bound : Pose K) (arm_joints : Fin 9 → JointIndex)
    (st : Run K) (n : Nat) : Run K :=
  (List.range n).foldl (fun s _ => clampTick target bound arm_joints s) st

/-- The body of the loop that stops the control (lines 1048-1056). -/
def stopTick (delta_weight : K) (st : Run K) : Run K :=
  let w1 := st.weight - delta_weight
  let w2 := clamp w1 0 1
  let msg := setQ st.msg JointIndex.kNotUsedJoint w2
  Run.mk (st.written ++ [msg]) st.current_jpos_des msg w2

/-- The state after `n` passes of the loop that stops the control. -/
def stopTicks (delta_weight : K) (st : Run K) (n : Nat) : Run K :=
  (List.range n).foldl (fun s _ => stopTick delta_weight s) st

/-- The loop `for (int i = 0; i < stop_time_steps; ++i)` that stops the control
(lines 1046-1060), entered with the given `weight`. -/
def stopLoop (delta_weight : K) (stop_time_steps : Int) (current_jpos_des : Pose K)
    (msg : LowCmd K) (weight : K) : Run K :=
  stopTicks delta_weight (Run.mk [] current_jpos_des msg weight) stop_time_steps.toNat

/-- The message as `main` declares it (`LowCmd_ msg;`), every field zero. -/
def zeroCmd : LowCmd K := fun _ => MotorCmd.mk 0 0 0 0 0

/-- The array `target_pos8` of `test.cpp` (lines 56-58). -/
def target_pos8 : Pose K := ![39 / 100, 0, 0, 1 / 10, 39 / 100, 0, 0, 1 / 10, 0]

/-- The constant `kPi_2` of `test123.cpp` (line 14). -/
def kPi_2 : K := 157079632 / 100000000

/-- The array `target_pos_dance2_prepos` of `test123.cpp` (lines 247-249). -/
def target_pos_dance2_prepos : Pose K :=
  ![19 / 100, 3 / 10, 14 / 10, kPi_2, 0, -(3 / 10), -(14 / 10), kPi_2, 0]

/-- The array `target_pos_dance2_1` of `test123.cpp` (lines 237-239). -/
def target_pos_dance2_1 : Pose K :=
  ![78 / 100, -(18 / 100), 14 / 10, kPi_2 + 18 / 100, -(39 / 100), -(18 / 100), -(17 / 10),
    kPi_2 - 0, -(1 / 10)]

/-- The authority value carried by a frame, `motor_cmd().at(kNotUsedJoint).q()`. -/
def authority (f : LowCmd K) : K := (f JointIndex.kNotUsedJoint.toFin).q

/-- The position setpoint that a frame carries for joint `j` of `arm_joints`. -/
def setpoint (arm_joints : Fin 9 → JointIndex) (f : LowCmd K) (j : Fin 9) : K :=
  (f (arm_joints j).toFin).q

/-- The enumerator values as written in the source (lines 22-48 of `test.cpp`, lines
66-96 of `test123.cpp`). -/
def JointIndex.toNat : JointIndex → Nat
  | .kRightHipYaw => 8
  | .kRightHipRoll => 0
  | .kRightHipPitch => 1
  | .kRightKnee => 2
  | .kRightAnkle => 11
  | .kLeftHipYaw => 7
  | .kLeftHipRoll => 3
  | .kLeftHipPitch => 4
  | .kLeftKnee => 5
  | .kLeftAnkle => 10
  | .kWaistYaw => 6
  | .kNotUsedJoint => 9
  | .kRightShoulderPitch => 12
  | .kRightShoulderRoll => 13
  | .kRightShoulderYaw => 14
  | .kRightElbow => 15
  | .kLeftShoulderPitch => 16
  | .kLeftShoulderRoll => 17
  | .kLeftShoulderYaw => 18
  | .kLeftElbow => 19

/-- The list of the twenty enumerators of `JointIndex`, in the order of the source. -/
def JointIndex.all : List JointIndex :=
  [.kRightHipYaw, .kRightHipRoll, .kRightHipPitch, .kRightKnee, .kRightAnkle,
   .kLeftHipYaw, .kLeftHipRoll, .kLeftHipPitch, .kLeftKnee, .kLeftAnkle,
   .kWaistYaw, .kNotUsedJoint,
   .kRightShoulderPitch, .kRightShoulderRoll, .kRightShoulderYaw, .kRightElbow,
   .kLeftShoulderPitch, .kLeftShoulderRoll, .kLeftShoulderYaw, .kLeftElbow]

/-- Modelled from the spec: the outbound command channel, which is not part of the
repository. `ch k f` tells whether the `k`-th send, the one of frame `f`, succeeds
(`false`: the send fails). -/
abbrev Channel (K : Type) := Nat → LowCmd K → Bool

/-- The sends of a block on a channel: every frame handed to
`arm_sdk_publisher->Write`, with the outcome of its send. `Write(msg);` is a statement
of its own in both programs (`test.cpp` line 107, `test123.cpp` line 396): the outcome
is not used, so the block itself does not depend on the channel. -/
def sends (ch : Channel K) (r : Run K) : List (LowCmd K × Bool) :=
  r.written.mapIdx (fun k f => (f, ch k f))

/-- The loop that reads the observed joint positions into `current_jpos` (`test.cpp`
lines 144-150, `test123.cpp` lines 269-275); `motor_state_q n` is
`state_msg.motor_state().at(n).q()`. -/
def current_jpos (motor_state_q : Nat → K) (arm_joints : Fin 9 → JointIndex) : Pose K :=
  (List.finRange 9).foldl
    (fun cur i => Function.update cur i (motor_state_q (arm_joints i).toFin.val)) (fun _ => 0)

/-- The arguments of one call of `updateJointPositions` in `main`. -/
structure Call (K : Type) where
  num_time_steps : Int
  target_position : Pose K
  phase_koef : K
  start_stop : Int

/-- A sequence of calls of `updateJointPositions` on the same `current_jpos_des` and
`msg`, both passed by reference (`test.cpp` lines 160-179): the blocks in order. -/
def runCalls (pow : K → K → K) (arm_joints : Fin 9 → JointIndex) :
    List (Call K) → Pose K → LowCmd K → List (Run K)
  | [], _, _ => []
  | c :: cs, current_jpos_des, msg =>
    let r := updateJointPositions pow c.num_time_steps c.target_position current_jpos_des
      c.phase_koef msg arm_joints c.start_stop
    r :: runCalls pow arm_joints cs r.current_jpos_des r.msg

/-- The array `init_pos` of `test.cpp` (lines 51-53). -/
def init_pos : Pose K := ![29 / 100, 0, 0, 1 / 10, 29 / 100, 0, 0, 1 / 10, 0]

/-- The eight calls of `main` in `test.cpp` (lines 162-178), with `phase_koef = 1.2`. -/
def test_calls : List (Call K) :=
  [Call.mk 500 init_pos (6 / 5) 1,
   Call.mk 500 ![39 / 100, 0, 0, 1 / 10, -(1 / 2), -(2 / 10), 0, 157079632 / 100000000, 0]
     (3 / 2) 0,
   Call.mk 450 ![39 / 100, 0, 0, 1 / 10, -(18 / 10), 2 / 10, 0, 157079632 / 100000000, 0] 1 0,
   Call.mk 450 ![39 / 100, 0, 0, 1 / 10, -(17 / 10), 0, 0, 157079632 / 100000000, 0] 1 0,
   Call.mk 300 ![39 / 100, 0, 0, 1 / 10, -(1 / 2), 0, 0, 157079632 / 100000000, 0] 1 0,
   Call.mk 300 ![39 / 100, 0, 0, 1 / 10, -(1 / 2), -(2 / 10), 0, 157079632 / 100000000, 0] 1 0,
   Call.mk 400 ![39 / 100, 0, 0, 1 / 10, -(1 / 2), -(2 / 10), 0, 157079632 / 100000000, 0] 1 0,
   Call.mk 400 target_pos8 (6 / 5) 2]

/-- The motion part of `main` in `test.cpp` (lines 143-179): the desired pose is the
observed pose, the message is the one just declared. -/
def test_main (pow : K → K → K) (motor_state_q : Nat → K) : List (Run K) :=
  runCalls pow arm_joints test_calls (current_jpos motor_state_q arm_joints) zeroCmd

/-- The body of the loop that initialises the arms in `test123.cpp` (lines 283-303):
the weight is 1, the positions blend from `current_jpos` to `init_pos` with
`phase = 1.0 * i / init_time_steps`, and `tau_ff = 0`. -/
def initTick (init_time_steps : Int) (init_pos current_jpos : Pose K)
    (arm_joints : Fin 9 → JointIndex) (st : Run K) (i : Nat) : Run K :=
  let weight : K := 1
  let msg1 := setQ st.msg JointIndex.kNotUsedJoint weight
  let phase : K := 1 * (i : K) / (init_time_steps : K)
  let msg2 := (List.finRange 9).foldl
    (packStep arm_joints (fun j => init_pos j * phase + current_jpos j * (1 - phase))) msg1
  Run.mk (st.written ++ [msg2]) st.current_jpos_des msg2 weight

/-- The loop that initialises the arms in `test123.cpp` (lines 283-303). The loop does
not use `current_jpos_des`, which is declared after it; the field holds the value of
that declaration, `std::array<float, 9> current_jpos_des{}` (line 328). -/
def initLoop (init_time_steps : Int) (init_pos current_jpos : Pose K)
    (arm_joints : Fin 9 → JointIndex) (msg : LowCmd K) (weight : K) : Run K :=
  (List.range init_time_steps.toNat).foldl
    (initTick init_time_steps init_pos current_jpos arm_joints)
    (Run.mk [] (fun _ => 0) msg weight)

/-- The array `target_pos1` of `test123.cpp` (lines 174-176). -/
def target_pos1 : Pose K := ![0, 78 / 100, 0, kPi_2, 0, -(78 / 100), 0, kPi_2, 0]

/-- The sleep of a step of `updateJointPositions`, in milliseconds (`test.cpp` line 108). -/
def tickSleep (_i : Int) : Int := 1

/-- The sleep of step `i` of a clamp segment, in milliseconds (`test123.cpp` line 398):
`(1 + i * (phase_koef / num_time_steps)) * (phase_time / num_time_steps)` on `int`.
The values of the program are far from the range where an `int` overflows. -/
def clampTickSleep (i phase_koef phase_time num_time_steps : Int) : Int :=
  (1 + i * Int.tdiv phase_koef num_time_steps) * Int.tdiv phase_time num_time_steps

end Programs

/-! ### The constants of the stop loop of `test123.cpp` -/

/-- The conversion `static_cast<int>(x)` of a non-integral value: truncation. -/
def static_cast_int (x : ℚ) : Int := Int.tdiv x.num x.den

/-- `float weight_rate = 0.2f;` (line 155). -/
def weight_rate : ℚ := 2 / 10

/-- `float control_dt = 0.02f;` (line 162). -/
def control_dt : ℚ := 2 / 100

/-- `float delta_weight = weight_rate * control_dt;` (line 167). -/
def delta_weight : ℚ := weight_rate * control_dt

/-- `float stop_time = 2.0f;` (line 1043). -/
def stop_time : ℚ := 2

/-- `int stop_time_steps = static_cast<int>(stop_time / control_dt);` (line 1044). -/
def stop_time_steps : Int := static_cast_int (stop_time / control_dt)

/-- `float init_time = 0.1f;` (line 280). -/
def init_time : ℚ := 1 / 10

/-- `int init_time_steps = static_cast<int>(init_time / control_dt);` (line 281). -/
def init_time_steps : Int := static_cast_int (init_time / control_dt)

/-- `float max_joint_velocity = 0.5f;` (line 163). -/
def max_joint_velocity : ℚ := 1 / 2

/-- `float max_joint_delta = max_joint_velocity * control_dt;` (line 168). -/
def max_joint_delta : ℚ := max_joint_velocity * control_dt

/-- `int phase_time = 200;`, `int phase_koef = 0;` and `int num_time_steps = phase_time;`
(lines 320-323). -/
def phase_time : Int := 200

/-- `int phase_koef = 0;` (line 321). -/
def phase_koef : Int := 0

/-- `int num_time_steps = phase_time;` (line 323). -/
def num_time_steps : Int := phase_time

/-- The beginning of `main` in `test123.cpp` (lines 268-343): `current_jpos` is read from
the observed state, the arms are initialised towards `init_pos`, which is all zero
(line 172), then `current_jpos_des` is declared, all zero, and the first pass of the
loop that lifts the arms towards `target_pos1` runs with the bound `max_joint_delta`
on every joint. The result is the block of the initialisation and the block of the
lift. -/
def test123_main (motor_state_q : Nat → ℚ) : Run ℚ × Run ℚ :=
  let r0 := initLoop init_time_steps (fun _ => 0) (current_jpos motor_state_q arm_joints)
    arm_joints zeroCmd 0
  let r1 := clampTicks target_pos1 (fun _ => max_joint_delta) arm_joints
    (Run.mk [] r0.current_jpos_des r0.msg r0.weight) num_time_steps.toNat
  (r0, r1)


/-! ### Binary32 arithmetic

The definitions above take a `float` as an element of a field and an operation as
exact. The definitions below repeat the loops with every operation rounded: `rnd` is the
rounding of a real value to a `float`, and an operation on `float` values is the exact
operation followed by `rnd` (each operation is rounded on its own, to binary32, without
fused multiply-add). `round32` is that rounding for binary32: to nearest, ties to even,
with the subnormal range; values beyond the largest `float` are not modelled. -/

/-- Rounding of a non-negative rational to the nearest integer, ties to even. -/
def rne (x : ℚ) : ℤ :=
  if 2 * Int.fract x < 1 then ⌊x⌋
  else if 1 < 2 * Int.fract x then ⌊x⌋ + 1
  else if ⌊x⌋ % 2 = 0 then ⌊x⌋ else ⌊x⌋ + 1

/-- The unit in the last place of binary32 at a positive value `x`: 24 significant bits,
smallest normal exponent -126. -/
def ulp32 (x : ℚ) : ℚ := 2 ^ (max (Int.log 2 x) (-126) - 23)

/-- Rounding of a non-negative rational to binary32. -/
def roundPos (x : ℚ) : ℚ := (rne (x / ulp32 x) : ℚ) * ulp32 x

/-- Rounding of a rational to binary32, to nearest, ties to even. -/
def round32 (x : ℚ) : ℚ := if 0 ≤ x then roundPos x else -roundPos (-x)

/-- An array of `float` literals: each entry rounded to binary32. -/
def toFloat (p : Pose ℚ) : Pose ℚ := fun j => round32 (p j)

section Rounded

variable {K : Type} [LinearOrderedField K]

/-- The normalised time `t` of step `i` (`test.cpp` lines 83-84) on `float`:
`static_cast<float>(i) / (num_time_steps - 1)`, the divisor converted to `float`. -/
def easeTR (rnd : K → K) (num_time_steps : Int) (i : Nat) : K :=
  if num_time_steps ≤ 1 then 1
  else rnd (rnd (i : K) / rnd ((num_time_steps - 1 : Int) : K))

/-- The authority update of step `i` (`test.cpp` lines 88-94) on `float`. -/
def weightStepR (rnd : K → K) (num_time_steps : Int) (start_stop : Int) (i : Nat)
    (weight : K) (msg : LowCmd K) : K × LowCmd K :=
  if start_stop = 1 then
    let w : K := rnd (1 * rnd ((Int.tdiv ((i : Int) + 1) num_time_steps : Int) : K))
    (w, setQ msg JointIndex.kNotUsedJoint w)
  else if start_stop = 2 then
    let w : K := rnd (1 * rnd (1 - rnd (rnd (i : K) / rnd (num_time_steps : K))))
    (w, setQ msg JointIndex.kNotUsedJoint w)
  else (weight, msg)

/-- One pass of the inner loop over the joints (`test.cpp` lines 95-105) on `float`:
`desired = initial_jpos[j] + deltas[j] * s`, the product rounded, then the sum. The
constants `60.f`, `1.5f`, `0.f` and `1.0f` are `float` values. -/
def jointStepR (rnd : K → K) (arm_joints : Fin 9 → JointIndex) (initial_jpos deltas : Pose K)
    (s : K) (st : Pose K × LowCmd K) (j : Fin 9) : Pose K × LowCmd K :=
  let desired := rnd (initial_jpos j + rnd (deltas j * s))
  let cur := Function.update st.1 j desired
  (cur, setCmd st.2 (arm_joints j) (cur j) 0 60 (3 / 2) 1)

/-- The body of the loop of `updateJointPositions` (`test.cpp` lines 82-108) on `float`. -/
def tickR (rnd : K → K) (pow : K → K → K) (num_time_steps : Int)
    (initial_jpos deltas : Pose K) (phase_koef : K) (arm_joints : Fin 9 → JointIndex)
    (start_stop : Int) (st : Run K) (i : Nat) : Run K :=
  let t : K := easeTR rnd num_time_steps i
  let s := pow t phase_koef
  let wm := weightStepR rnd num_time_steps start_stop i st.weight st.msg
  let pm := (List.finRange 9).foldl (jointStepR rnd arm_joints initial_jpos deltas s)
    (st.current_jpos_des, wm.2)
  Run.mk (st.written ++ [pm.2]) pm.1 pm.2 wm.1

/-- The state after the first `n` passes of the loop, on `float`. -/
def ticksR (rnd : K → K) (pow : K → K → K) (num_time_steps : Int)
    (initial_jpos deltas : Pose K) (phase_koef : K) (arm_joints : Fin 9 → JointIndex)
    (start_stop : Int) (st : Run K) (n : Nat) : Run K :=
  (List.range n).foldl
    (tickR rnd pow num_time_steps initial_jpos deltas phase_koef arm_joints start_stop) st

/-- The function `updateJointPositions` of `test.cpp` (lines 59-110) on `float`:
`deltas[j] = target_position[j] - initial_jpos[j]` is rounded, and so is every
operation of the loop. -/
def updateJointPositionsR (rnd : K → K) (pow : K → K → K) (num_time_steps : Int)
    (target_position current_jpos_des : Pose K) (phase_koef : K) (msg : LowCmd K)
    (arm_joints : Fin 9 → JointIndex) (start_stop : Int) : Run K :=
  let initial_jpos : Pose K := current_jpos_des
  let weight : K := if start_stop = 1 then 0 else if start_stop = 2 then 1 else 0
  let deltas : Pose K := fun j => rnd (target_position j - initial_jpos j)
  ticksR rnd pow num_time_steps initial_jpos deltas phase_koef arm_joints start_stop
    (Run.mk [] current_jpos_des msg weight) num_time_steps.toNat

end Rounded

/-- The target of the second call of `main` in `test.cpp` (line 168),
`target_pos_vrash_chas_ruki_1`. -/
def target_pos_vrash_chas_ruki_1 : Pose ℚ :=
  ![39 / 100, 0, 0, 1 / 10, -(1 / 2), -(2 / 10), 0, 157079632 / 100000000, 0]


/-! ## Lemmas on the loops -/

section Slots

variable {K : Type}

theorem setQ_q (msg : LowCmd K) (idx : JointIndex) (w : K) :
    (setQ msg idx w idx.toFin).q = w := by
  simp [setQ]

theorem setQ_of_ne (msg : LowCmd K) (idx : JointIndex) (w : K) (k : Fin 20)
    (h : k ≠ idx.toFin) : setQ msg idx w k = msg k := by
  simp [setQ, Function.update_noteq h]

theorem setCmd_same (msg : LowCmd K) (idx : JointIndex) (q dq kp kd tau : K) :
    setCmd msg idx q dq kp kd tau idx.toFin = MotorCmd.mk q dq kp kd tau := by
  simp [setCmd]

theorem setCmd_of_ne (msg : LowCmd K) (idx : JointIndex) (q dq kp kd tau : K) (k : Fin 20)
    (h : k ≠ idx.toFin) : setCmd msg idx q dq kp kd tau k = msg k := by
  simp [setCmd, Function.update_noteq h]

theorem sends_length (ch : Channel K) (r : Run K) : (sends ch r).length = r.written.length := by
  simp [sends]

theorem sends_getElem? (ch : Channel K) (r : Run K) (k : Nat) :
    (sends ch r)[k]? = (r.written[k]?).map (fun f => (f, ch k f)) := by
  simp [sends, List.getElem?_mapIdx]

theorem sends_fst (ch : Channel K) (r : Run K) : (sends ch r).map Prod.fst = r.written := by
  apply List.ext_getElem?
  intro k
  rw [List.getElem?_map, sends_getElem?, Option.map_map]
  cases r.written[k]? <;> rfl


/-- The loop over the joints of a duplicate-free list `l` that reads the state. -/
theorem readFold (g : Fin 9 → K) (l : List (Fin 9)) (cur : Pose K) (j : Fin 9) :
    (l.foldl (fun c i => Function.update c i (g i)) cur) j = if j ∈ l then g j else cur j := by
  induction l generalizing cur with
  | nil => simp
  | cons a l ih =>
    rw [List.foldl_cons, ih]
    by_cases hj : j ∈ l
    · simp [hj]
    · by_cases hja : j = a
      · subst hja
        simp [hj]
      · simp [hj, hja, Function.update_noteq hja]

end Slots

/-! ### Properties of the binary32 rounding -/

theorem rne_intCast (n : ℤ) : rne (n : ℚ) = n := by
  simp [rne]

theorem rne_floor_le (x : ℚ) : ⌊x⌋ ≤ rne x := by
  unfold rne
  split_ifs <;> omega

theorem rne_le_floor_succ (x : ℚ) : rne x ≤ ⌊x⌋ + 1 := by
  unfold rne
  split_ifs <;> omega

theorem rne_mono {x y : ℚ} (h : x ≤ y) : rne x ≤ rne y := by
  rcases lt_or_eq_of_le (Int.floor_mono h) with hlt | heq
  · calc rne x ≤ ⌊x⌋ + 1 := rne_le_floor_succ x
      _ ≤ ⌊y⌋ := hlt
      _ ≤ rne y := rne_floor_le y
  · have hfr : Int.fract x ≤ Int.fract y := by
      have hx : Int.fract x = x - ⌊x⌋ := rfl
      have hy : Int.fract y = y - ⌊y⌋ := rfl
      rw [hx, hy, heq]
      linarith
    unfold rne
    rw [heq]
    split_ifs <;> first | omega | (exfalso; linarith)

theorem rne_eq_of_abs_lt (x : ℚ) (m : ℤ) (h : |x - m| < 1 / 2) : rne x = m := by
  have h1 := abs_lt.1 h
  have hlo : m ≤ rne x := by
    -- m - 1/2 < x
    by_contra hc
    have hc' : rne x ≤ m - 1 := by omega
    have hf : ⌊x⌋ ≤ m - 1 := le_trans (rne_floor_le x) hc'
    have hx : x < (⌊x⌋ : ℚ) + 1 := Int.lt_floor_add_one x
    have hfq : (⌊x⌋ : ℚ) ≤ (m : ℚ) - 1 := by exact_mod_cast hf
    -- x ≥ m - 1/2, floor ≤ m - 1 so fract ≥ 1/2, and rne = floor means fract ≤ 1/2
    have hfr : Int.fract x = x - ⌊x⌋ := rfl
    have hge : 1 < 2 * Int.fract x := by rw [hfr]; linarith [h1.1]
    have : rne x = ⌊x⌋ + 1 := by
      unfold rne
      rw [if_neg (by linarith), if_pos hge]
    have hf2 : (⌊x⌋ : ℚ) + 1 ≤ (m : ℚ) - 1 := by
      have : ⌊x⌋ + 1 ≤ m - 1 := by omega
      exact_mod_cast this
    linarith [h1.1]
  have hhi : rne x ≤ m := by
    by_contra hc
    have hc' : m + 1 ≤ rne x := by omega
    have hf : m ≤ ⌊x⌋ := by have := rne_le_floor_succ x; omega
    have hfq : (m : ℚ) ≤ ⌊x⌋ := by exact_mod_cast hf
    have hfl : (⌊x⌋ : ℚ) ≤ x := Int.floor_le x
    have hfr : Int.fract x = x - ⌊x⌋ := rfl
    have hlt : 2 * Int.fract x < 1 := by rw [hfr]; linarith [h1.2]
    have : rne x = ⌊x⌋ := by
      unfold rne
      rw [if_pos hlt]
    have hf3 : (m : ℚ) + 1 ≤ ⌊x⌋ := by
      have : m + 1 ≤ ⌊x⌋ := by omega
      exact_mod_cast this
    linarith [h1.2]
  omega

theorem rne_eq_of_abs_le_even (x : ℚ) (m : ℤ) (h : |x - m| ≤ 1 / 2) (hm : m % 2 = 0) :
    rne x = m := by
  rcases lt_or_eq_of_le h with hlt | heq
  · exact rne_eq_of_abs_lt x m hlt
  · rcases abs_eq (by norm_num : (0 : ℚ) ≤ 1 / 2) |>.1 heq with hp | hn
    · have hx : x = (m : ℚ) + 1 / 2 := by linarith
      have hfl : ⌊x⌋ = m := by
        rw [Int.floor_eq_iff]
        constructor <;> linarith
      have hfr : Int.fract x = 1 / 2 := by
        have : Int.fract x = x - ⌊x⌋ := rfl
        rw [this, hfl]
        linarith
      unfold rne
      rw [hfr, hfl, if_neg (by norm_num), if_neg (by norm_num), if_pos hm]
    · have hx : x = (m : ℚ) - 1 / 2 := by linarith
      have hfl : ⌊x⌋ = m - 1 := by
        rw [Int.floor_eq_iff]
        push_cast
        constructor <;> linarith
      have hfr : Int.fract x = 1 / 2 := by
        have : Int.fract x = x - ⌊x⌋ := rfl
        rw [this, hfl]
        push_cast
        linarith
      unfold rne
      rw [hfr, hfl, if_neg (by norm_num), if_neg (by norm_num), if_neg (by omega)]
      omega

theorem ulp32_pos (x : ℚ) : 0 < ulp32 x := by
  unfold ulp32
  positivity

theorem ulp32_eq (x : ℚ) (e : ℤ) (he : -149 ≤ e) (h1 : (2 : ℚ) ^ (e + 23) ≤ x)
    (h2 : x < (2 : ℚ) ^ (e + 24)) : ulp32 x = 2 ^ e := by
  have hx : 0 < x := lt_of_lt_of_le (by positivity) h1
  have hlog : Int.log 2 x = e + 23 := by
    have a : e + 23 ≤ Int.log 2 x :=
      (Int.zpow_le_iff_le_log (by norm_num) hx).1 (by exact_mod_cast h1)
    have b : Int.log 2 x < e + 24 :=
      (Int.lt_zpow_iff_log_lt (by norm_num) hx).1 (by exact_mod_cast h2)
    omega
  unfold ulp32
  rw [hlog, max_eq_left (by omega)]
  congr 1
  omega

theorem roundPos_eq (x : ℚ) (m e : ℤ) (he : -149 ≤ e) (h1 : (2 : ℚ) ^ (e + 23) ≤ x)
    (h2 : x < (2 : ℚ) ^ (e + 24)) (h3 : |x - m * 2 ^ e| < 2 ^ e / 2) :
    roundPos x = m * 2 ^ e := by
  unfold roundPos
  rw [ulp32_eq x e he h1 h2]
  have hpos : (0 : ℚ) < 2 ^ e := by positivity
  rw [rne_eq_of_abs_lt (x / 2 ^ e) m]
  have : x / 2 ^ e - m = (x - m * 2 ^ e) / 2 ^ e := by
    field_simp
    ring
  rw [this, abs_div, abs_of_pos hpos, div_lt_iff₀ hpos]
  linarith



theorem roundPos_eq_even (x : ℚ) (m e : ℤ) (he : -149 ≤ e) (h1 : (2 : ℚ) ^ (e + 23) ≤ x)
    (h2 : x < (2 : ℚ) ^ (e + 24)) (h3 : |x - m * 2 ^ e| ≤ 2 ^ e / 2) (hm : m % 2 = 0) :
    roundPos x = m * 2 ^ e := by
  unfold roundPos
  rw [ulp32_eq x e he h1 h2]
  have hpos : (0 : ℚ) < 2 ^ e := by positivity
  rw [rne_eq_of_abs_le_even (x / 2 ^ e) m _ hm]
  have : x / 2 ^ e - m = (x - m * 2 ^ e) / 2 ^ e := by
    field_simp
    ring
  rw [this, abs_div, abs_of_pos hpos, div_le_iff₀ hpos]
  linarith

/-- The binade exponent used by `ulp32`. -/
theorem ulp32_def (x : ℚ) : ulp32 x = 2 ^ (max (Int.log 2 x) (-126) - 23) := rfl

theorem two_zpow_split (b : ℤ) : (2 : ℚ) ^ (b + 1) = 2 ^ (24 : ℤ) * 2 ^ (b - 23) := by
  rw [← zpow_add₀ (two_ne_zero)]
  congr 1
  omega

theorem two_zpow_split' (b : ℤ) : (2 : ℚ) ^ b = 2 ^ (23 : ℤ) * 2 ^ (b - 23) := by
  rw [← zpow_add₀ (two_ne_zero)]
  congr 1
  omega

theorem lt_top_binade (x : ℚ) : x < 2 ^ (max (Int.log 2 x) (-126) + 1) := by
  have h := Int.lt_zpow_succ_log_self (b := 2) (by norm_num) x
  have h2 : ((2 : ℕ) : ℚ) ^ (Int.log 2 x + 1) ≤ (2 : ℚ) ^ (max (Int.log 2 x) (-126) + 1) := by
    push_cast
    exact zpow_le_zpow_right₀ (by norm_num) (by omega)
  exact lt_of_lt_of_le h h2

theorem roundPos_zero : roundPos 0 = 0 := by
  simp [roundPos, rne]

theorem roundPos_nonneg (x : ℚ) (hx : 0 ≤ x) : 0 ≤ roundPos x := by
  unfold roundPos
  have h : (0 : ℤ) ≤ rne (x / ulp32 x) := by
    have := rne_mono (div_nonneg hx (le_of_lt (ulp32_pos x)))
    simpa [rne] using this
  exact mul_nonneg (by exact_mod_cast h) (le_of_lt (ulp32_pos x))

theorem roundPos_le_top (x : ℚ) : roundPos x ≤ 2 ^ (max (Int.log 2 x) (-126) + 1) := by
  unfold roundPos
  have hu := ulp32_pos x
  have h1 : x / ulp32 x ≤ ((2 ^ 24 : ℤ) : ℚ) := by
    have e24 : (((2 : ℤ) ^ 24 : ℤ) : ℚ) = (2 : ℚ) ^ (24 : ℤ) := by norm_num
    rw [div_le_iff₀ hu, ulp32_def, e24, ← two_zpow_split]
    exact le_of_lt (lt_top_binade x)
  have h2 : rne (x / ulp32 x) ≤ 2 ^ 24 := by
    have := rne_mono h1
    rwa [rne_intCast] at this
  have h3 : (rne (x / ulp32 x) : ℚ) ≤ 2 ^ (24 : ℤ) := by exact_mod_cast h2
  rw [two_zpow_split, ← ulp32_def]
  exact mul_le_mul_of_nonneg_right h3 (le_of_lt hu)

theorem roundPos_ge_bot (x : ℚ) (hx : 0 < x) (hlog : -126 ≤ Int.log 2 x) :
    (2 : ℚ) ^ (Int.log 2 x) ≤ roundPos x := by
  unfold roundPos
  have hu := ulp32_pos x
  have hB : max (Int.log 2 x) (-126) = Int.log 2 x := max_eq_left hlog
  have hle : (2 : ℚ) ^ (Int.log 2 x) ≤ x := by
    have := Int.zpow_log_le_self (b := 2) (by norm_num) hx
    exact_mod_cast this
  have hud : ulp32 x = 2 ^ (Int.log 2 x - 23) := by rw [ulp32_def, hB]
  have h1 : ((2 ^ 23 : ℤ) : ℚ) ≤ x / ulp32 x := by
    have e23 : (((2 : ℤ) ^ 23 : ℤ) : ℚ) = (2 : ℚ) ^ (23 : ℤ) := by norm_num
    rw [le_div_iff₀ hu, hud, e23, ← two_zpow_split']
    exact hle
  have h2 : 2 ^ 23 ≤ rne (x / ulp32 x) := by
    have := rne_mono h1
    rwa [rne_intCast] at this
  have h3 : (2 : ℚ) ^ (23 : ℤ) ≤ (rne (x / ulp32 x) : ℚ) := by exact_mod_cast h2
  rw [two_zpow_split' (Int.log 2 x), ← hud]
  exact mul_le_mul_of_nonneg_right h3 (le_of_lt hu)

theorem roundPos_mono {x y : ℚ} (hx : 0 ≤ x) (h : x ≤ y) : roundPos x ≤ roundPos y := by
  rcases eq_or_lt_of_le hx with h0 | hpos
  · rw [← h0, roundPos_zero]
    exact roundPos_nonneg y (le_trans hx h)
  · have hy : 0 < y := lt_of_lt_of_le hpos h
    have hlog : Int.log 2 x ≤ Int.log 2 y := Int.log_mono_right hpos h
    rcases eq_or_lt_of_le (max_le_max hlog (le_refl (-126 : ℤ))) with he | hlt
    · have hu : ulp32 x = ulp32 y := by rw [ulp32_def, ulp32_def, he]
      unfold roundPos
      rw [hu]
      have := rne_mono (div_le_div_of_nonneg_right h (le_of_lt (ulp32_pos y)))
      exact mul_le_mul_of_nonneg_right (by exact_mod_cast this) (le_of_lt (ulp32_pos y))
    · have hy126 : -126 ≤ Int.log 2 y := by
        by_contra hc
        rw [max_eq_right (by omega : Int.log 2 y ≤ -126)] at hlt
        have := le_max_right (Int.log 2 x) (-126)
        omega
      have hBy : max (Int.log 2 y) (-126) = Int.log 2 y := max_eq_left hy126
      rw [hBy] at hlt
      calc roundPos x ≤ 2 ^ (max (Int.log 2 x) (-126) + 1) := roundPos_le_top x
        _ ≤ 2 ^ (Int.log 2 y) := zpow_le_zpow_right₀ (by norm_num) (by omega)
        _ ≤ roundPos y := roundPos_ge_bot y hy hy126

theorem round32_mono : Monotone round32 := by
  intro x y h
  unfold round32
  by_cases hx : 0 ≤ x
  · rw [if_pos hx, if_pos (le_trans hx h)]
    exact roundPos_mono hx h
  · rw [if_neg hx]
    by_cases hy : 0 ≤ y
    · rw [if_pos hy]
      have := roundPos_nonneg (-x) (by linarith)
      have := roundPos_nonneg y hy
      linarith
    · rw [if_neg hy]
      have := roundPos_mono (x := -y) (y := -x) (by linarith) (by linarith)
      linarith

/-- A multiple of the unit of its own binade is not changed by the rounding. -/
theorem roundPos_fix (y : ℚ) (n b : ℤ) (hy : y = n * 2 ^ (b - 23))
    (hmax : max (Int.log 2 y) (-126) = b) : roundPos y = y := by
  have hu : ulp32 y = 2 ^ (b - 23) := by rw [ulp32_def, hmax]
  have hpos : (0 : ℚ) < 2 ^ (b - 23) := by positivity
  unfold roundPos
  rw [hu]
  have hq : y / 2 ^ (b - 23) = (n : ℚ) := by
    rw [hy]
    field_simp
  rw [hq, rne_intCast, ← hy]

theorem roundPos_idem (x : ℚ) (hx : 0 ≤ x) : roundPos (roundPos x) = roundPos x := by
  rcases eq_or_lt_of_le (roundPos_nonneg x hx) with h0 | hpos
  · rw [← h0, roundPos_zero]
  · have hx0 : 0 < x := by
      rcases eq_or_lt_of_le hx with h | h
      · rw [← h, roundPos_zero] at hpos
        exact absurd hpos (lt_irrefl _)
      · exact h
    have hdef : roundPos x = (rne (x / ulp32 x) : ℚ) * 2 ^ (max (Int.log 2 x) (-126) - 23) := rfl
    have htop := roundPos_le_top x
    rcases eq_or_lt_of_le htop with heq | hlt
    · -- the rounding reached the next binade
      have hlog : Int.log 2 (roundPos x) = max (Int.log 2 x) (-126) + 1 := by
        rw [heq]
        have := Int.log_zpow (R := ℚ) (b := 2) (by norm_num) (max (Int.log 2 x) (-126) + 1)
        exact_mod_cast this
      apply roundPos_fix (roundPos x) (2 ^ 23) (max (Int.log 2 x) (-126) + 1)
      · rw [heq]
        have e23 : (((2 : ℤ) ^ 23 : ℤ) : ℚ) = (2 : ℚ) ^ (23 : ℤ) := by norm_num
        rw [e23, ← two_zpow_split']
      · rw [hlog]
        exact max_eq_left (by have := le_max_right (Int.log 2 x) (-126); omega)
    · apply roundPos_fix (roundPos x) (rne (x / ulp32 x)) (max (Int.log 2 x) (-126)) hdef
      have hup : Int.log 2 (roundPos x) < max (Int.log 2 x) (-126) + 1 :=
        (Int.lt_zpow_iff_log_lt (by norm_num) hpos).1 (by exact_mod_cast hlt)
      by_cases hn : -126 ≤ Int.log 2 x
      · have hB : max (Int.log 2 x) (-126) = Int.log 2 x := max_eq_left hn
        have hlo : Int.log 2 x ≤ Int.log 2 (roundPos x) :=
          (Int.zpow_le_iff_le_log (by norm_num) hpos).1
            (by exact_mod_cast roundPos_ge_bot x hx0 hn)
        rw [hB] at hup ⊢
        rw [max_eq_left (by omega)]
        omega
      · have hB : max (Int.log 2 x) (-126) = -126 := max_eq_right (by omega)
        rw [hB] at hup ⊢
        exact max_eq_right (by omega)

theorem round32_idem (x : ℚ) : round32 (round32 x) = round32 x := by
  unfold round32
  by_cases hx : 0 ≤ x
  · rw [if_pos hx, if_pos (roundPos_nonneg x hx), roundPos_idem x hx]
  · rw [if_neg hx]
    have hnx : 0 ≤ -x := by linarith
    rcases eq_or_lt_of_le (roundPos_nonneg (-x) hnx) with h0 | hpos
    · rw [← h0]
      simp [roundPos_zero]
    · rw [if_neg (by linarith), neg_neg, roundPos_idem (-x) hnx]

theorem round32_zero : round32 0 = 0 := by
  simp [round32, roundPos_zero]

/-- Evaluation of the rounding at a value of either sign. -/
theorem round32_eq (x : ℚ) (m e : ℤ) (he : -149 ≤ e) (h1 : (2 : ℚ) ^ (e + 23) ≤ |x|)
    (h2 : |x| < (2 : ℚ) ^ (e + 24)) (h3 : |x - m * 2 ^ e| < 2 ^ e / 2) :
    round32 x = m * 2 ^ e := by
  unfold round32
  by_cases hx : 0 ≤ x
  · rw [if_pos hx]
    rw [abs_of_nonneg hx] at h1 h2
    exact roundPos_eq x m e he h1 h2 h3
  · rw [if_neg hx]
    rw [abs_of_neg (by linarith)] at h1 h2
    have h3' : |(-x) - ((-m : ℤ) : ℚ) * 2 ^ e| < 2 ^ e / 2 := by
      have : (-x) - ((-m : ℤ) : ℚ) * 2 ^ e = -(x - m * 2 ^ e) := by push_cast; ring
      rw [this, abs_neg]
      exact h3
    rw [roundPos_eq (-x) (-m) e he h1 h2 h3']
    push_cast
    ring

theorem round32_eq_even (x : ℚ) (m e : ℤ) (he : -149 ≤ e) (h1 : (2 : ℚ) ^ (e + 23) ≤ |x|)
    (h2 : |x| < (2 : ℚ) ^ (e + 24)) (h3 : |x - m * 2 ^ e| ≤ 2 ^ e / 2) (hm : m % 2 = 0) :
    round32 x = m * 2 ^ e := by
  unfold round32
  by_cases hx : 0 ≤ x
  · rw [if_pos hx]
    rw [abs_of_nonneg hx] at h1 h2
    exact roundPos_eq_even x m e he h1 h2 h3 hm
  · rw [if_neg hx]
    rw [abs_of_neg (by linarith)] at h1 h2
    have h3' : |(-x) - ((-m : ℤ) : ℚ) * 2 ^ e| ≤ 2 ^ e / 2 := by
      have : (-x) - ((-m : ℤ) : ℚ) * 2 ^ e = -(x - m * 2 ^ e) := by push_cast; ring
      rw [this, abs_neg]
      exact h3
    rw [roundPos_eq_even (-x) (-m) e he h1 h2 h3' (by omega)]
    push_cast
    ring

/-- Rounding to the nearest integer moves a value by at most one half. -/
theorem rne_err (x : ℚ) : |((rne x : ℤ) : ℚ) - x| ≤ 1 / 2 := by
  have hx : ((⌊x⌋ : ℤ) : ℚ) = x - Int.fract x := by
    rw [Int.fract]
    ring
  have hf0 := Int.fract_nonneg x
  have hf1 := Int.fract_lt_one x
  unfold rne
  split_ifs with a b c
  · rw [hx, abs_le]
    constructor <;> linarith
  · push_cast
    rw [hx, abs_le]
    constructor <;> linarith
  · rw [hx, abs_le]
    constructor <;> linarith
  · push_cast
    rw [hx, abs_le]
    constructor <;> linarith

theorem roundPos_err (x : ℚ) : |roundPos x - x| ≤ ulp32 x / 2 := by
  have hu := ulp32_pos x
  have h : roundPos x - x = (((rne (x / ulp32 x) : ℤ) : ℚ) - x / ulp32 x) * ulp32 x := by
    unfold roundPos
    field_simp
  rw [h, abs_mul, abs_of_pos hu]
  have := rne_err (x / ulp32 x)
  nlinarith

/-- Rounding to binary32 moves a value by at most half a unit in the last place. -/
theorem round32_err (x : ℚ) : |round32 x - x| ≤ ulp32 |x| / 2 := by
  unfold round32
  split_ifs with h
  · rw [abs_of_nonneg h]
    exact roundPos_err x
  · have hx : |x| = -x := abs_of_neg (not_le.1 h)
    rw [hx, show -roundPos (-x) - x = -(roundPos (-x) - -x) by ring, abs_neg]
    exact roundPos_err (-x)


/-! ### Values of the binary32 rounding -/

/-- The value 1 is a `float`. -/
theorem round32_one : round32 (1) = 1 := by
  have h := round32_eq (1) (8388608) (-23) (by norm_num)
    (by rw [abs_of_pos (by norm_num)]; norm_num)
    (by rw [abs_of_pos (by norm_num)]; norm_num)
    (by rw [abs_lt]; constructor <;> norm_num)
  rw [h]
  norm_num

/-- The value 499 is a `float`. -/
theorem round32_499 : round32 (499) = 499 := by
  have h := round32_eq (499) (16351232) (-15) (by norm_num)
    (by rw [abs_of_pos (by norm_num)]; norm_num)
    (by rw [abs_of_pos (by norm_num)]; norm_num)
    (by rw [abs_lt]; constructor <;> norm_num)
  rw [h]
  norm_num

/-- The literal `0.29f`. -/
theorem fl_29_100 : round32 (29 / 100) = 9730785 / 33554432 := by
  have h := round32_eq (29 / 100) (9730785) (-25) (by norm_num)
    (by rw [abs_of_pos (by norm_num)]; norm_num)
    (by rw [abs_of_pos (by norm_num)]; norm_num)
    (by rw [abs_lt]; constructor <;> norm_num)
  rw [h]
  norm_num

/-- The literal `-0.5f`. -/
theorem fl_neg_half : round32 (-(1 / 2)) = -(1 / 2) := by
  have h := round32_eq (-(1 / 2)) (-8388608) (-24) (by norm_num)
    (by rw [abs_of_neg (by norm_num)]; norm_num)
    (by rw [abs_of_neg (by norm_num)]; norm_num)
    (by rw [abs_lt]; constructor <;> norm_num)
  rw [h]
  norm_num

/-- The difference `-0.5f - 0.29f` on `float`: a tie, rounded to even. -/
theorem fl_delta_29 : round32 (-(1 / 2) - 9730785 / 33554432) = -(828375 / 1048576) := by
  have h := round32_eq_even (-(1 / 2) - 9730785 / 33554432) (-13254000) (-24) (by norm_num)
    (by rw [abs_of_neg (by norm_num)]; norm_num)
    (by rw [abs_of_neg (by norm_num)]; norm_num)
    (by rw [abs_le]; constructor <;> norm_num) (by decide)
  rw [h]
  norm_num

/-- The sum `0.29f + (-0.5f - 0.29f)` on `float`. -/
theorem fl_arrival_29 : round32 (9730785 / 33554432 + -(828375 / 1048576)) = -(16777215 / 33554432) := by
  have h := round32_eq (9730785 / 33554432 + -(828375 / 1048576)) (-16777215) (-25) (by norm_num)
    (by rw [abs_of_neg (by norm_num)]; norm_num)
    (by rw [abs_of_neg (by norm_num)]; norm_num)
    (by rw [abs_lt]; constructor <;> norm_num)
  rw [h]
  norm_num

/-- The value 1.5826477 is a `float`. -/
theorem fl_start_158 : round32 (13276211 / 8388608) = 13276211 / 8388608 := by
  have h := round32_eq (13276211 / 8388608) (13276211) (-23) (by norm_num)
    (by rw [abs_of_pos (by norm_num)]; norm_num)
    (by rw [abs_of_pos (by norm_num)]; norm_num)
    (by rw [abs_lt]; constructor <;> norm_num)
  rw [h]
  norm_num

/-- The value -1.4695859 is a `float`. -/
theorem fl_target_146 : round32 (-(3081945 / 2097152)) = -(3081945 / 2097152) := by
  have h := round32_eq (-(3081945 / 2097152)) (-12327780) (-23) (by norm_num)
    (by rw [abs_of_neg (by norm_num)]; norm_num)
    (by rw [abs_of_neg (by norm_num)]; norm_num)
    (by rw [abs_lt]; constructor <;> norm_num)
  rw [h]
  norm_num

/-- The difference of the two on `float`: a tie, rounded to even. -/
theorem fl_delta_158 : round32 (-(3081945 / 2097152) - 13276211 / 8388608) = -(3200499 / 1048576) := by
  have h := round32_eq_even (-(3081945 / 2097152) - 13276211 / 8388608) (-12801996) (-22) (by norm_num)
    (by rw [abs_of_neg (by norm_num)]; norm_num)
    (by rw [abs_of_neg (by norm_num)]; norm_num)
    (by rw [abs_le]; constructor <;> norm_num) (by decide)
  rw [h]
  norm_num

/-- The sum of the start and the rounded difference on `float`. -/
theorem fl_arrival_158 : round32 (13276211 / 8388608 + -(3200499 / 1048576)) = -(12327781 / 8388608) := by
  have h := round32_eq (13276211 / 8388608 + -(3200499 / 1048576)) (-12327781) (-23) (by norm_num)
    (by rw [abs_of_neg (by norm_num)]; norm_num)
    (by rw [abs_of_neg (by norm_num)]; norm_num)
    (by rw [abs_lt]; constructor <;> norm_num)
  rw [h]
  norm_num

section Lemmas

variable {K : Type} [LinearOrderedField K]

/-- The pose after the inner loop over the joints of `l`. -/
theorem jointFold_fst (aj : Fin 9 → JointIndex) (ini d : Pose K) (s : K) (l : List (Fin 9))
    (st : Pose K × LowCmd K) (j : Fin 9) :
    (l.foldl (jointStep aj ini d s) st).1 j = if j ∈ l then ini j + d j * s else st.1 j := by
  induction l generalizing st with
  | nil => simp
  | cons a l ih =>
    rw [List.foldl_cons, ih]
    by_cases hj : j ∈ l
    · simp [hj]
    · by_cases hja : j = a
      · subst hja
        simp [hj, jointStep]
      · simp [hj, hja, jointStep, Function.update_noteq hja]

/-- Slots that are not the slot of a joint of `l` keep their contents. -/
theorem jointFold_snd_of_not_mem (aj : Fin 9 → JointIndex) (ini d : Pose K) (s : K)
    (l : List (Fin 9)) (st : Pose K × LowCmd K) (k : Fin 20)
    (h : ∀ j ∈ l, k ≠ (aj j).toFin) :
    (l.foldl (jointStep aj ini d s) st).2 k = st.2 k := by
  induction l generalizing st with
  | nil => simp
  | cons a l ih =>
    rw [List.foldl_cons, ih _ (fun j hj => h j (List.mem_cons_of_mem _ hj))]
    simp only [jointStep]
    exact setCmd_of_ne _ _ _ _ _ _ _ _ (h a (List.mem_cons_self _ _))

/-- The slot of a joint of `l` holds the command of that joint. -/
theorem jointFold_snd_of_mem (aj : Fin 9 → JointIndex) (ini d : Pose K) (s : K)
    (hinj : Function.Injective (fun j => (aj j).toFin))
    (l : List (Fin 9)) (st : Pose K × LowCmd K) (j : Fin 9) (hj : j ∈ l) :
    (l.foldl (jointStep aj ini d s) st).2 (aj j).toFin
      = MotorCmd.mk (ini j + d j * s) 0 60 (3 / 2) 1 := by
  induction l generalizing st with
  | nil => simp at hj
  | cons a l ih =>
    rw [List.foldl_cons]
    by_cases hjl : j ∈ l
    · exact ih _ hjl
    · have hja : j = a := by
        rcases List.mem_cons.1 hj with h | h
        · exact h
        · exact absurd h hjl
      subst hja
      rw [jointFold_snd_of_not_mem]
      · simp [jointStep, setCmd_same]
      · intro b hb hEq
        have : j = b := hinj hEq
        exact hjl (this ▸ hb)

theorem ticks_zero (pow : K → K → K) (N : Int) (ini d : Pose K) (e : K)
    (aj : Fin 9 → JointIndex) (ss : Int) (st : Run K) :
    ticks pow N ini d e aj ss st 0 = st := by
  simp [ticks]

theorem ticks_succ (pow : K → K → K) (N : Int) (ini d : Pose K) (e : K)
    (aj : Fin 9 → JointIndex) (ss : Int) (st : Run K) (n : Nat) :
    ticks pow N ini d e aj ss st (n + 1)
      = tick pow N ini d e aj ss (ticks pow N ini d e aj ss st n) n := by
  simp [ticks, List.range_succ, List.foldl_append]

/-- The frames written by the first `n` passes are the messages after each pass. -/
theorem ticks_written (pow : K → K → K) (N : Int) (ini d : Pose K) (e : K)
    (aj : Fin 9 → JointIndex) (ss : Int) (st : Run K) (n : Nat) :
    (ticks pow N ini d e aj ss st n).written
      = st.written ++ (List.range n).map (fun i => (ticks pow N ini d e aj ss st (i + 1)).msg) := by
  induction n with
  | zero => simp [ticks_zero]
  | succ n ih =>
    rw [List.range_succ, List.map_append, ← List.append_assoc, ← ih]
    simp [ticks_succ, tick]

/-- The desired pose after pass `i` is the eased pose of step `i`, whatever it was before. -/
theorem tick_pose (pow : K → K → K) (N : Int) (ini d : Pose K) (e : K)
    (aj : Fin 9 → JointIndex) (ss : Int) (st : Run K) (i : Nat) (j : Fin 9) :
    (tick pow N ini d e aj ss st i).current_jpos_des j = ini j + d j * pow (easeT N i) e := by
  simp [tick, jointFold_fst]

/-- The slot of joint `j` in the message after pass `i`. -/
theorem tick_msg_joint (pow : K → K → K) (N : Int) (ini d : Pose K) (e : K)
    (aj : Fin 9 → JointIndex) (hinj : Function.Injective (fun j => (aj j).toFin))
    (ss : Int) (st : Run K) (i : Nat) (j : Fin 9) :
    (tick pow N ini d e aj ss st i).msg (aj j).toFin
      = MotorCmd.mk (ini j + d j * pow (easeT N i) e) 0 60 (3 / 2) 1 := by
  simp only [tick]
  exact jointFold_snd_of_mem aj ini d _ hinj _ _ j (List.mem_finRange j)

/-- A slot that belongs to no commanded joint holds what the authority update left. -/
theorem tick_msg_other (pow : K → K → K) (N : Int) (ini d : Pose K) (e : K)
    (aj : Fin 9 → JointIndex) (ss : Int) (st : Run K) (i : Nat) (k : Fin 20)
    (hk : ∀ j, k ≠ (aj j).toFin) :
    (tick pow N ini d e aj ss st i).msg k = (weightStep N ss i st.weight st.msg).2 k := by
  simp only [tick]
  exact jointFold_snd_of_not_mem aj ini d _ _ _ k (fun j _ => hk j)

/-- The frames written by `updateJointPositions`. -/
theorem updateJointPositions_written (pow : K → K → K) (N : Int) (tg cur : Pose K) (e : K)
    (msg : LowCmd K) (aj : Fin 9 → JointIndex) (ss : Int) :
    (updateJointPositions pow N tg cur e msg aj ss).written
      = (List.range N.toNat).map (fun i =>
          (ticks pow N cur (fun j => tg j - cur j) e aj ss
            (Run.mk [] cur msg (if ss = 1 then 0 else if ss = 2 then 1 else 0)) (i + 1)).msg) := by
  simp [updateJointPositions, ticks_written]

/-- The number of frames written by `updateJointPositions`. -/
theorem updateJointPositions_length (pow : K → K → K) (N : Int) (tg cur : Pose K) (e : K)
    (msg : LowCmd K) (aj : Fin 9 → JointIndex) (ss : Int) :
    (updateJointPositions pow N tg cur e msg aj ss).written.length = N.toNat := by
  simp [updateJointPositions_written]

/-- Frame `i` of `updateJointPositions` is the message after pass `i`. -/
theorem updateJointPositions_frame (pow : K → K → K) (N : Int) (tg cur : Pose K) (e : K)
    (msg : LowCmd K) (aj : Fin 9 → JointIndex) (ss : Int) (i : Nat) (hi : i < N.toNat) :
    (updateJointPositions pow N tg cur e msg aj ss).written[i]?
      = some (tick pow N cur (fun j => tg j - cur j) e aj ss
          (ticks pow N cur (fun j => tg j - cur j) e aj ss
            (Run.mk [] cur msg (if ss = 1 then 0 else if ss = 2 then 1 else 0)) i) i).msg := by
  rw [updateJointPositions_written, List.getElem?_map, List.getElem?_range hi]
  simp [ticks_succ]

/-- The enumerator values of the nine `arm_joints` are pairwise different. -/
theorem arm_joints_injective : Function.Injective (fun j => (arm_joints j).toFin) := by
  decide

/-- No entry of `arm_joints` is `kNotUsedJoint`. -/
theorem arm_joints_ne_notUsed (j : Fin 9) :
    JointIndex.kNotUsedJoint.toFin ≠ (arm_joints j).toFin := by
  revert j
  decide

theorem easeT_eq (N : Int) (i : Nat) :
    (easeT N i : K) = if 1 < N then (i : K) / ((N : K) - 1) else 1 := by
  unfold easeT
  by_cases h : N ≤ 1
  · simp [h, not_lt.2 h]
  · simp [h, not_le.1 h]

theorem easeT_last (N : Int) (hN : 1 < N) : (easeT N (N - 1).toNat : K) = 1 := by
  have h1 : ((N - 1).toNat : Int) = N - 1 := Int.toNat_of_nonneg (by omega)
  have h2 : (((N - 1).toNat : Nat) : K) = ((N - 1 : Int) : K) := by
    rw [← h1]; simp
  have h3 : ((N - 1 : Int) : K) ≠ 0 := by
    have : (N - 1 : Int) ≠ 0 := by omega
    exact_mod_cast this
  unfold easeT
  rw [if_neg (by omega), h2, div_self h3]

/-- The desired pose that `updateJointPositions` leaves after at least one pass. -/
theorem updateJointPositions_pose (pow : K → K → K) (N : Int) (hN : 1 ≤ N) (tg cur : Pose K)
    (e : K) (msg : LowCmd K) (aj : Fin 9 → JointIndex) (ss : Int) (j : Fin 9) :
    (updateJointPositions pow N tg cur e msg aj ss).current_jpos_des j
      = cur j + (tg j - cur j) * pow (easeT N (N - 1).toNat) e := by
  have h : N.toNat = (N - 1).toNat + 1 := by omega
  simp only [updateJointPositions]
  rw [h, ticks_succ, tick_pose]

/-- The last frame of `updateJointPositions` is the message it leaves. -/
theorem updateJointPositions_last (pow : K → K → K) (N : Int) (hN : 1 ≤ N) (tg cur : Pose K)
    (e : K) (msg : LowCmd K) (aj : Fin 9 → JointIndex) (ss : Int) :
    (updateJointPositions pow N tg cur e msg aj ss).written.getLast?
      = (updateJointPositions pow N tg cur e msg aj ss).written[(N - 1).toNat]? := by
  rw [List.getLast?_eq_getElem?, updateJointPositions_length]
  congr 1
  omega

/-! ### The clamp loops of `test123.cpp` -/

/-- A difference of zero stays zero under every clamp with bounds `-r ≤ 0 ≤ r`. -/
theorem clamp_zero (r : K) (hr : 0 ≤ r) : clamp (0 : K) (-r) r = 0 := by
  unfold clamp
  rw [if_neg (by linarith), if_neg (by linarith)]

/-- The pose after the loop over the joints of a duplicate-free list `l`. -/
theorem clampFold (target bound : Pose K) (l : List (Fin 9)) (hl : l.Nodup) (cur : Pose K)
    (j : Fin 9) :
    (l.foldl (clampStep target bound) cur) j
      = if j ∈ l then cur j + clamp (target j - cur j) (-bound j) (bound j) else cur j := by
  induction l generalizing cur with
  | nil => simp
  | cons a l ih =>
    rw [List.foldl_cons, ih (List.nodup_cons.1 hl).2]
    by_cases hja : j = a
    · subst hja
      simp [(List.nodup_cons.1 hl).1, clampStep]
    · simp [hja, clampStep, Function.update_noteq hja]

/-- One pass of a clamp segment moves every joint by its clamped distance. -/
theorem clampTick_pose (target bound : Pose K) (aj : Fin 9 → JointIndex) (st : Run K)
    (j : Fin 9) :
    (clampTick target bound aj st).current_jpos_des j
      = st.current_jpos_des j
          + clamp (target j - st.current_jpos_des j) (-bound j) (bound j) := by
  simp [clampTick, clampFold _ _ _ (List.nodup_finRange 9)]

theorem packFold_of_not_mem (aj : Fin 9 → JointIndex) (cur : Pose K) (l : List (Fin 9))
    (msg : LowCmd K) (k : Fin 20) (h : ∀ j ∈ l, k ≠ (aj j).toFin) :
    (l.foldl (packStep aj cur) msg) k = msg k := by
  induction l generalizing msg with
  | nil => simp
  | cons a l ih =>
    rw [List.foldl_cons, ih _ (fun j hj => h j (List.mem_cons_of_mem _ hj))]
    exact setCmd_of_ne _ _ _ _ _ _ _ _ (h a (List.mem_cons_self _ _))

theorem packFold_of_mem (aj : Fin 9 → JointIndex)
    (hinj : Function.Injective (fun j => (aj j).toFin)) (cur : Pose K) (l : List (Fin 9))
    (msg : LowCmd K) (j : Fin 9) (hj : j ∈ l) :
    (l.foldl (packStep aj cur) msg) (aj j).toFin = MotorCmd.mk (cur j) 0 60 (3 / 2) 0 := by
  induction l generalizing msg with
  | nil => simp at hj
  | cons a l ih =>
    rw [List.foldl_cons]
    by_cases hjl : j ∈ l
    · exact ih _ hjl
    · have hja : j = a := by
        rcases List.mem_cons.1 hj with h | h
        · exact h
        · exact absurd h hjl
      subst hja
      rw [packFold_of_not_mem]
      · simp [packStep, setCmd_same]
      · intro b hb hEq
        have : j = b := hinj hEq
        exact hjl (this ▸ hb)

/-- The frame of a pass of a clamp segment carries the updated pose. -/
theorem clampTick_msg_joint (target bound : Pose K) (aj : Fin 9 → JointIndex)
    (hinj : Function.Injective (fun j => (aj j).toFin)) (st : Run K) (j : Fin 9) :
    (clampTick target bound aj st).msg (aj j).toFin
      = MotorCmd.mk ((clampTick target bound aj st).current_jpos_des j) 0 60 (3 / 2) 0 := by
  simp only [clampTick]
  exact packFold_of_mem aj hinj _ _ _ j (List.mem_finRange j)

theorem clampTicks_zero (target bound : Pose K) (aj : Fin 9 → JointIndex) (st : Run K) :
    clampTicks target bound aj st 0 = st := by
  simp [clampTicks]

theorem clampTicks_succ (target bound : Pose K) (aj : Fin 9 → JointIndex) (st : Run K)
    (n : Nat) :
    clampTicks target bound aj st (n + 1)
      = clampTick target bound aj (clampTicks target bound aj st n) := by
  simp [clampTicks, List.range_succ, List.foldl_append]

theorem clampTicks_written (target bound : Pose K) (aj : Fin 9 → JointIndex) (st : Run K)
    (n : Nat) :
    (clampTicks target bound aj st n).written
      = st.written
          ++ (List.range n).map (fun i => (clampTicks target bound aj st (i + 1)).msg) := by
  induction n with
  | zero => simp [clampTicks_zero]
  | succ n ih =>
    rw [List.range_succ, List.map_append, ← List.append_assoc, ← ih]
    simp [clampTicks_succ, clampTick]

/-- The position that frame `i` of `updateJointPositions` carries for joint `j`. -/
theorem updateJointPositions_setpoint (pow : K → K → K) (N : Int) (tg cur : Pose K) (e : K)
    (msg : LowCmd K) (aj : Fin 9 → JointIndex)
    (hinj : Function.Injective (fun j => (aj j).toFin)) (ss : Int)
    (i : Nat) (hi : (i : Int) < N) (j : Fin 9) :
    ((updateJointPositions pow N tg cur e msg aj ss).written[i]?).map (fun f => setpoint aj f j)
      = some (cur j + (tg j - cur j) * pow (easeT N i) e) := by
  rw [updateJointPositions_frame pow N tg cur e msg aj ss i (by omega)]
  simp only [Option.map_some', setpoint]
  rw [tick_msg_joint pow N _ _ e aj hinj]

/-- The last frame of `updateJointPositions` carries the pose that the call leaves. -/
theorem updateJointPositions_last_setpoint (pow : K → K → K) (N : Int) (hN : 1 ≤ N)
    (tg cur : Pose K) (e : K) (msg : LowCmd K) (aj : Fin 9 → JointIndex)
    (hinj : Function.Injective (fun j => (aj j).toFin)) (ss : Int) (j : Fin 9) :
    ((updateJointPositions pow N tg cur e msg aj ss).written.getLast?).map
        (fun f => setpoint aj f j)
      = some ((updateJointPositions pow N tg cur e msg aj ss).current_jpos_des j) := by
  rw [updateJointPositions_last pow N hN,
    updateJointPositions_setpoint pow N tg cur e msg aj hinj ss (N - 1).toNat (by omega),
    updateJointPositions_pose pow N hN]

/-- The first frame of an eased segment of more than one step carries the entry pose,
when `pow 0 e = 0`. -/
theorem updateJointPositions_first_setpoint (pow : K → K → K) (N : Int) (hN : 1 < N)
    (tg cur : Pose K) (e : K) (hpow : pow 0 e = 0) (msg : LowCmd K) (aj : Fin 9 → JointIndex)
    (hinj : Function.Injective (fun j => (aj j).toFin)) (ss : Int) (j : Fin 9) :
    ((updateJointPositions pow N tg cur e msg aj ss).written.head?).map
        (fun f => setpoint aj f j) = some (cur j) := by
  have h0 : (easeT N 0 : K) = 0 := by
    unfold easeT
    rw [if_neg (by omega)]
    simp
  rw [List.head?_eq_getElem?,
    updateJointPositions_setpoint pow N tg cur e msg aj hinj ss 0 (by simpa using by omega),
    h0, hpow]
  simp

/-! ### The authority slot -/

/-- Truncating division of `i + 1` by `N` for a step `i < N`: 1 at the last step, 0 before. -/
theorem tdiv_step (N : Int) (i : Nat) (hi : (i : Int) < N) :
    Int.tdiv ((i : Int) + 1) N = if (i : Int) + 1 = N then 1 else 0 := by
  rw [Int.tdiv_eq_ediv (by omega) (by omega)]
  split_ifs with h
  · rw [h]
    exact Int.ediv_self (by omega)
  · exact Int.ediv_eq_zero_of_lt (by omega) (by omega)

/-- The authority carried by the message after pass `i`. -/
theorem tick_authority (pow : K → K → K) (N : Int) (ini d : Pose K) (e : K)
    (aj : Fin 9 → JointIndex) (hk : ∀ j, JointIndex.kNotUsedJoint.toFin ≠ (aj j).toFin)
    (ss : Int) (st : Run K) (i : Nat) :
    authority (tick pow N ini d e aj ss st i).msg
      = if ss = 1 then ((Int.tdiv ((i : Int) + 1) N : Int) : K)
        else if ss = 2 then 1 - (i : K) / (N : K) else authority st.msg := by
  simp only [authority]
  rw [tick_msg_other pow N ini d e aj ss st i _ hk]
  unfold weightStep
  split_ifs with h1 h2
  · simp [setQ_q]
  · simp [setQ_q]
  · rfl

/-- Without an authority transition the slot `kNotUsedJoint` is never touched. -/
theorem ticks_slot_hold (pow : K → K → K) (N : Int) (ini d : Pose K) (e : K)
    (aj : Fin 9 → JointIndex) (hk : ∀ j, JointIndex.kNotUsedJoint.toFin ≠ (aj j).toFin)
    (ss : Int) (h1 : ss ≠ 1) (h2 : ss ≠ 2) (st : Run K) (n : Nat) :
    (ticks pow N ini d e aj ss st n).msg JointIndex.kNotUsedJoint.toFin
      = st.msg JointIndex.kNotUsedJoint.toFin := by
  induction n with
  | zero => rw [ticks_zero]
  | succ n ih =>
    rw [ticks_succ, tick_msg_other pow N ini d e aj ss _ n _ hk]
    simp [weightStep, h1, h2, ih]

/-- The authority values of the frames of `updateJointPositions`, in order. -/
theorem updateJointPositions_authorities (pow : K → K → K) (N : Int) (tg cur : Pose K) (e : K)
    (msg : LowCmd K) (aj : Fin 9 → JointIndex)
    (hk : ∀ j, JointIndex.kNotUsedJoint.toFin ≠ (aj j).toFin) (ss : Int) :
    (updateJointPositions pow N tg cur e msg aj ss).written.map authority
      = (List.range N.toNat).map (fun i : Nat =>
          if ss = 1 then ((Int.tdiv ((i : Int) + 1) N : Int) : K)
          else if ss = 2 then 1 - (i : K) / (N : K) else authority msg) := by
  rw [updateJointPositions_written, List.map_map]
  apply List.map_congr_left
  intro i _
  simp only [Function.comp]
  rw [ticks_succ, tick_authority pow N _ _ e aj hk]
  split_ifs with h1 h2
  · rfl
  · rfl
  · simp only [authority]
    rw [ticks_slot_hold pow N _ _ e aj hk ss h1 h2]

/-- The result of `std::clamp` lies between its bounds. -/
theorem clamp_mem (v lo hi : K) (h : lo ≤ hi) :
    lo ≤ clamp v lo hi ∧ clamp v lo hi ≤ hi := by
  unfold clamp
  split_ifs with h1 h2
  · exact ⟨le_refl _, h⟩
  · exact ⟨h, le_refl _⟩
  · exact ⟨not_lt.1 h1, not_lt.1 h2⟩

theorem stopTicks_zero (dw : K) (st : Run K) : stopTicks dw st 0 = st := by
  simp [stopTicks]

theorem stopTicks_succ (dw : K) (st : Run K) (n : Nat) :
    stopTicks dw st (n + 1) = stopTick dw (stopTicks dw st n) := by
  simp [stopTicks, List.range_succ, List.foldl_append]

theorem stopTicks_written (dw : K) (st : Run K) (n : Nat) :
    (stopTicks dw st n).written
      = st.written ++ (List.range n).map (fun i => (stopTicks dw st (i + 1)).msg) := by
  induction n with
  | zero => simp [stopTicks_zero]
  | succ n ih =>
    rw [List.range_succ, List.map_append, ← List.append_assoc, ← ih]
    simp [stopTicks_succ, stopTick]

/-- The message after a pass of the stop loop carries the clamped weight. -/
theorem stopTick_authority (dw : K) (st : Run K) :
    authority (stopTick dw st).msg = clamp (st.weight - dw) 0 1 := by
  simp [authority, stopTick, setQ_q]

/-- While the weight has not reached a bound, `k` passes of the stop loop subtract
`k * delta_weight`. -/
theorem stopTicks_weight (dw : K) (hdw : 0 ≤ dw) (st : Run K) (h1 : st.weight ≤ 1)
    (k : Nat) (hk : (k : K) * dw ≤ st.weight) :
    (stopTicks dw st k).weight = st.weight - (k : K) * dw := by
  induction k with
  | zero => simp [stopTicks_zero]
  | succ k ih =>
    have hk1 : ((k : Nat) : K) * dw ≤ st.weight := by
      push_cast at hk
      nlinarith
    have hkk : (0 : K) ≤ (k : K) * dw := mul_nonneg (Nat.cast_nonneg k) hdw
    rw [stopTicks_succ]
    simp only [stopTick]
    rw [ih hk1]
    unfold clamp
    push_cast at hk ⊢
    rw [if_neg (by linarith), if_neg (by linarith)]
    ring

/-- The authority values of the frames of the stop loop, in order. -/
theorem stopLoop_authorities (dw : K) (n : Int) (cur : Pose K) (msg : LowCmd K) (w : K) :
    (stopLoop dw n cur msg w).written.map authority
      = (List.range n.toNat).map (fun i =>
          clamp ((stopTicks dw (Run.mk [] cur msg w) i).weight - dw) 0 1) := by
  simp only [stopLoop]
  rw [stopTicks_written, List.nil_append, List.map_map]
  apply List.map_congr_left
  intro i _
  simp only [Function.comp]
  rw [stopTicks_succ, stopTick_authority]

/-- The authority carried by frame `i` of `updateJointPositions`. -/
theorem updateJointPositions_authority_at (pow : K → K → K) (N : Int) (tg cur : Pose K)
    (e : K) (msg : LowCmd K) (aj : Fin 9 → JointIndex)
    (hk : ∀ j, JointIndex.kNotUsedJoint.toFin ≠ (aj j).toFin) (ss : Int)
    (i : Nat) (hi : (i : Int) < N) :
    ((updateJointPositions pow N tg cur e msg aj ss).written[i]?).map authority
      = some (if ss = 1 then ((Int.tdiv ((i : Int) + 1) N : Int) : K)
          else if ss = 2 then 1 - (i : K) / (N : K) else authority msg) := by
  rw [← List.getElem?_map, updateJointPositions_authorities pow N tg cur e msg aj hk,
    List.getElem?_map, List.getElem?_range (by omega)]
  rfl

/-- The last element of a list computed from the first `n + 1` step numbers. -/
theorem getLast?_map_range {α : Type} (g : Nat → α) (n : Nat) :
    ((List.range (n + 1)).map g).getLast? = some (g n) := by
  simp [List.range_succ]

theorem getLast?_map_comm {α β : Type} (f : α → β) (l : List α) :
    (l.getLast?).map f = (l.map f).getLast? := by
  rw [List.getLast?_eq_getElem?, List.getLast?_eq_getElem?, List.getElem?_map,
    List.length_map]

/-! ### The channel, the seeding and the sequence of calls -/

/-- The pose `current_jpos` holds the observed position of each commanded joint. -/
theorem current_jpos_apply (motor_state_q : Nat → K) (aj : Fin 9 → JointIndex) (j : Fin 9) :
    current_jpos motor_state_q aj j = motor_state_q (aj j).toFin.val := by
  simp [current_jpos, readFold (fun i => motor_state_q (aj i).toFin.val)]

theorem initFold_succ (N : Int) (ip cj : Pose K) (aj : Fin 9 → JointIndex) (st : Run K)
    (n : Nat) :
    (List.range (n + 1)).foldl (initTick N ip cj aj) st
      = initTick N ip cj aj ((List.range n).foldl (initTick N ip cj aj) st) n := by
  simp [List.range_succ, List.foldl_append]

theorem initFold_written (N : Int) (ip cj : Pose K) (aj : Fin 9 → JointIndex) (st : Run K)
    (n : Nat) :
    ((List.range n).foldl (initTick N ip cj aj) st).written
      = st.written
          ++ (List.range n).map
              (fun i => ((List.range (i + 1)).foldl (initTick N ip cj aj) st).msg) := by
  induction n with
  | zero => simp
  | succ n ih =>
    rw [List.range_succ, List.map_append, ← List.append_assoc, ← ih]
    simp [List.range_succ, List.foldl_append, initTick]

/-- The first frame of the initialisation loop carries the pose `current_jpos`. -/
theorem initLoop_first_setpoint (N : Int) (hN : 1 ≤ N) (ip cj : Pose K)
    (aj : Fin 9 → JointIndex) (hinj : Function.Injective (fun j => (aj j).toFin))
    (msg : LowCmd K) (w : K) (j : Fin 9) :
    ((initLoop N ip cj aj msg w).written.head?).map (fun f => setpoint aj f j)
      = some (cj j) := by
  have hn : N.toNat = (N.toNat - 1) + 1 := by omega
  simp only [initLoop]
  rw [initFold_written, List.nil_append, List.head?_eq_getElem?, List.getElem?_map,
    List.getElem?_range (by omega)]
  simp only [Option.map_some', setpoint]
  rw [initFold_succ]
  simp only [initTick, List.range_zero, List.foldl_nil]
  rw [packFold_of_mem aj hinj _ _ _ j (List.mem_finRange j)]
  simp

/-- The first frame of a clamp loop with any bound carries the entry pose moved by the
clamped distance. -/
theorem clampTicks_first_setpoint (target bound : Pose K) (aj : Fin 9 → JointIndex)
    (hinj : Function.Injective (fun j => (aj j).toFin)) (cur : Pose K) (msg : LowCmd K) (w : K)
    (n : Nat) (hn : 1 ≤ n) (j : Fin 9) :
    ((clampTicks target bound aj (Run.mk [] cur msg w) n).written.head?).map
        (fun f => setpoint aj f j)
      = some (cur j + clamp (target j - cur j) (-bound j) (bound j)) := by
  rw [clampTicks_written, List.nil_append, List.head?_eq_getElem?, List.getElem?_map,
    List.getElem?_range (by omega)]
  simp only [Option.map_some', setpoint]
  rw [clampTicks_succ, clampTicks_zero, clampTick_msg_joint _ _ _ hinj, clampTick_pose]

/-- The blocks of a sequence of calls, one for each call. -/
theorem runCalls_length (pow : K → K → K) (aj : Fin 9 → JointIndex) (prog : List (Call K))
    (cur : Pose K) (msg : LowCmd K) : (runCalls pow aj prog cur msg).length = prog.length := by
  induction prog generalizing cur msg with
  | nil => rfl
  | cons c cs ih => simp [runCalls, ih]

/-- Call `i + 1` of a sequence runs on the desired pose and the message that call `i`
left. -/
theorem runCalls_step (pow : K → K → K) (aj : Fin 9 → JointIndex) (prog : List (Call K))
    (cur : Pose K) (msg : LowCmd K) (i : Nat) (c : Call K) (hc : prog[i + 1]? = some c) :
    ∃ r, (runCalls pow aj prog cur msg)[i]? = some r ∧
      (runCalls pow aj prog cur msg)[i + 1]?
        = some (updateJointPositions pow c.num_time_steps c.target_position r.current_jpos_des
            c.phase_koef r.msg aj c.start_stop) := by
  induction prog generalizing cur msg i with
  | nil => simp at hc
  | cons c0 cs ih =>
    cases i with
    | zero =>
      cases cs with
      | nil => simp at hc
      | cons c1 cs1 =>
        simp only [List.getElem?_cons_succ, List.getElem?_cons_zero, Option.some.injEq] at hc
        subst hc
        refine ⟨updateJointPositions pow c0.num_time_steps c0.target_position cur
          c0.phase_koef msg aj c0.start_stop, ?_, ?_⟩ <;> simp [runCalls]
    | succ i =>
      simp only [List.getElem?_cons_succ] at hc
      obtain ⟨r, h1, h2⟩ := ih
        (updateJointPositions pow c0.num_time_steps c0.target_position cur c0.phase_koef msg aj
          c0.start_stop).current_jpos_des
        (updateJointPositions pow c0.num_time_steps c0.target_position cur c0.phase_koef msg aj
          c0.start_stop).msg i hc
      exact ⟨r, by simpa [runCalls] using h1, by simpa [runCalls] using h2⟩

/-- Block `i` of a sequence is a call of `updateJointPositions` with the arguments of
call `i`. -/
theorem runCalls_block (pow : K → K → K) (aj : Fin 9 → JointIndex) (prog : List (Call K))
    (cur : Pose K) (msg : LowCmd K) (i : Nat) (c : Call K) (hc : prog[i]? = some c) :
    ∃ cur1 msg1, (runCalls pow aj prog cur msg)[i]?
      = some (updateJointPositions pow c.num_time_steps c.target_position cur1 c.phase_koef
          msg1 aj c.start_stop) := by
  induction prog generalizing cur msg i with
  | nil => simp at hc
  | cons c0 cs ih =>
    cases i with
    | zero =>
      simp only [List.getElem?_cons_zero, Option.some.injEq] at hc
      subst hc
      exact ⟨cur, msg, by simp [runCalls]⟩
    | succ i =>
      simp only [List.getElem?_cons_succ] at hc
      obtain ⟨cur1, msg1, h⟩ := ih
        (updateJointPositions pow c0.num_time_steps c0.target_position cur c0.phase_koef msg aj
          c0.start_stop).current_jpos_des
        (updateJointPositions pow c0.num_time_steps c0.target_position cur c0.phase_koef msg aj
          c0.start_stop).msg i hc
      exact ⟨cur1, msg1, by simpa [runCalls] using h⟩

/-- The initialisation loop does not touch the field `current_jpos_des`. -/
theorem initFold_current_jpos_des (N : Int) (ip cj : Pose K) (aj : Fin 9 → JointIndex)
    (st : Run K) (n : Nat) :
    ((List.range n).foldl (initTick N ip cj aj) st).current_jpos_des = st.current_jpos_des := by
  induction n with
  | zero => rfl
  | succ n ih =>
    rw [initFold_succ]
    simpa [initTick] using ih

theorem initLoop_current_jpos_des (N : Int) (ip cj : Pose K) (aj : Fin 9 → JointIndex)
    (msg : LowCmd K) (w : K) :
    (initLoop N ip cj aj msg w).current_jpos_des = fun _ => 0 := by
  simp only [initLoop]
  rw [initFold_current_jpos_des]

/-! ### The slots that `updateJointPositions` does not command -/

/-- The authority update writes no slot but `kNotUsedJoint`. -/
theorem weightStep_of_ne (N : Int) (ss : Int) (i : Nat) (w : K) (m : LowCmd K) (k : Fin 20)
    (hk : k ≠ JointIndex.kNotUsedJoint.toFin) : (weightStep N ss i w m).2 k = m k := by
  unfold weightStep
  split_ifs
  · exact setQ_of_ne _ _ _ _ hk
  · exact setQ_of_ne _ _ _ _ hk
  · rfl

/-- The authority update writes no field of the slot `kNotUsedJoint` but `q`. -/
theorem weightStep_fields (N : Int) (ss : Int) (i : Nat) (w : K) (m : LowCmd K) :
    ((weightStep N ss i w m).2 JointIndex.kNotUsedJoint.toFin).dq
        = (m JointIndex.kNotUsedJoint.toFin).dq ∧
    ((weightStep N ss i w m).2 JointIndex.kNotUsedJoint.toFin).kp
        = (m JointIndex.kNotUsedJoint.toFin).kp ∧
    ((weightStep N ss i w m).2 JointIndex.kNotUsedJoint.toFin).kd
        = (m JointIndex.kNotUsedJoint.toFin).kd ∧
    ((weightStep N ss i w m).2 JointIndex.kNotUsedJoint.toFin).tau
        = (m JointIndex.kNotUsedJoint.toFin).tau := by
  unfold weightStep
  split_ifs <;> simp [setQ]

/-- A slot that is neither the slot of a commanded joint nor `kNotUsedJoint` keeps its
contents through the passes of the loop. -/
theorem ticks_other_slot (pow : K → K → K) (N : Int) (ini d : Pose K) (e : K)
    (aj : Fin 9 → JointIndex) (ss : Int) (st : Run K) (k : Fin 20)
    (hk : ∀ j, k ≠ (aj j).toFin) (hk9 : k ≠ JointIndex.kNotUsedJoint.toFin) (n : Nat) :
    (ticks pow N ini d e aj ss st n).msg k = st.msg k := by
  induction n with
  | zero => rw [ticks_zero]
  | succ n ih =>
    rw [ticks_succ, tick_msg_other pow N ini d e aj ss _ n k hk, weightStep_of_ne _ _ _ _ _ _ hk9,
      ih]

/-- The fields `dq`, `kp`, `kd` and `tau` of the slot `kNotUsedJoint` keep their values
through the passes of the loop. -/
theorem ticks_notUsed_fields (pow : K → K → K) (N : Int) (ini d : Pose K) (e : K)
    (aj : Fin 9 → JointIndex) (hk : ∀ j, JointIndex.kNotUsedJoint.toFin ≠ (aj j).toFin)
    (ss : Int) (st : Run K) (n : Nat) :
    ((ticks pow N ini d e aj ss st n).msg JointIndex.kNotUsedJoint.toFin).dq
        = (st.msg JointIndex.kNotUsedJoint.toFin).dq ∧
    ((ticks pow N ini d e aj ss st n).msg JointIndex.kNotUsedJoint.toFin).kp
        = (st.msg JointIndex.kNotUsedJoint.toFin).kp ∧
    ((ticks pow N ini d e aj ss st n).msg JointIndex.kNotUsedJoint.toFin).kd
        = (st.msg JointIndex.kNotUsedJoint.toFin).kd ∧
    ((ticks pow N ini d e aj ss st n).msg JointIndex.kNotUsedJoint.toFin).tau
        = (st.msg JointIndex.kNotUsedJoint.toFin).tau := by
  induction n with
  | zero => rw [ticks_zero]; exact ⟨rfl, rfl, rfl, rfl⟩
  | succ n ih =>
    rw [ticks_succ, tick_msg_other pow N ini d e aj ss _ n _ hk]
    obtain ⟨h1, h2, h3, h4⟩ := weightStep_fields N ss n
      (ticks pow N ini d e aj ss st n).weight (ticks pow N ini d e aj ss st n).msg
    exact ⟨h1.trans ih.1, h2.trans ih.2.1, h3.trans ih.2.2.1, h4.trans ih.2.2.2⟩

/-! ### The loops on rounded values -/

/-- The rounded loop over the joints is the exact one on the rounded pose. -/
theorem jointStepR_eq (rnd : K → K) (aj : Fin 9 → JointIndex) (ini d : Pose K) (s : K) :
    jointStepR rnd aj ini d s
      = jointStep aj (fun j => rnd (ini j + rnd (d j * s))) (fun _ => 0) 0 := by
  funext st j
  simp [jointStepR, jointStep]

theorem ticksR_zero (rnd : K → K) (pow : K → K → K) (N : Int) (ini d : Pose K) (e : K)
    (aj : Fin 9 → JointIndex) (ss : Int) (st : Run K) :
    ticksR rnd pow N ini d e aj ss st 0 = st := by
  simp [ticksR]

theorem ticksR_succ (rnd : K → K) (pow : K → K → K) (N : Int) (ini d : Pose K) (e : K)
    (aj : Fin 9 → JointIndex) (ss : Int) (st : Run K) (n : Nat) :
    ticksR rnd pow N ini d e aj ss st (n + 1)
      = tickR rnd pow N ini d e aj ss (ticksR rnd pow N ini d e aj ss st n) n := by
  simp [ticksR, List.range_succ, List.foldl_append]

theorem ticksR_written (rnd : K → K) (pow : K → K → K) (N : Int) (ini d : Pose K) (e : K)
    (aj : Fin 9 → JointIndex) (ss : Int) (st : Run K) (n : Nat) :
    (ticksR rnd pow N ini d e aj ss st n).written
      = st.written
          ++ (List.range n).map (fun i => (ticksR rnd pow N ini d e aj ss st (i + 1)).msg) := by
  induction n with
  | zero => simp [ticksR_zero]
  | succ n ih =>
    rw [List.range_succ, List.map_append, ← List.append_assoc, ← ih]
    simp [ticksR_succ, tickR]

/-- The desired pose after pass `i` of the rounded loop. -/
theorem tickR_pose (rnd : K → K) (pow : K → K → K) (N : Int) (ini d : Pose K) (e : K)
    (aj : Fin 9 → JointIndex) (ss : Int) (st : Run K) (i : Nat) (j : Fin 9) :
    (tickR rnd pow N ini d e aj ss st i).current_jpos_des j
      = rnd (ini j + rnd (d j * pow (easeTR rnd N i) e)) := by
  simp [tickR, jointStepR_eq, jointFold_fst]

/-- The slot of joint `j` in the message after pass `i` of the rounded loop. -/
theorem tickR_msg_joint (rnd : K → K) (pow : K → K → K) (N : Int) (ini d : Pose K) (e : K)
    (aj : Fin 9 → JointIndex) (hinj : Function.Injective (fun j => (aj j).toFin))
    (ss : Int) (st : Run K) (i : Nat) (j : Fin 9) :
    (tickR rnd pow N ini d e aj ss st i).msg (aj j).toFin
      = MotorCmd.mk (rnd (ini j + rnd (d j * pow (easeTR rnd N i) e))) 0 60 (3 / 2) 1 := by
  simp only [tickR, jointStepR_eq]
  rw [jointFold_snd_of_mem aj _ _ _ hinj _ _ j (List.mem_finRange j)]
  simp

theorem updateJointPositionsR_written (rnd : K → K) (pow : K → K → K) (N : Int)
    (tg cur : Pose K) (e : K) (msg : LowCmd K) (aj : Fin 9 → JointIndex) (ss : Int) :
    (updateJointPositionsR rnd pow N tg cur e msg aj ss).written
      = (List.range N.toNat).map (fun i =>
          (ticksR rnd pow N cur (fun j => rnd (tg j - cur j)) e aj ss
            (Run.mk [] cur msg (if ss = 1 then 0 else if ss = 2 then 1 else 0)) (i + 1)).msg) := by
  simp [updateJointPositionsR, ticksR_written]

theorem updateJointPositionsR_length (rnd : K → K) (pow : K → K → K) (N : Int)
    (tg cur : Pose K) (e : K) (msg : LowCmd K) (aj : Fin 9 → JointIndex) (ss : Int) :
    (updateJointPositionsR rnd pow N tg cur e msg aj ss).written.length = N.toNat := by
  simp [updateJointPositionsR_written]

/-- The position that frame `i` of the rounded `updateJointPositions` carries for joint
`j`. -/
theorem updateJointPositionsR_setpoint (rnd : K → K) (pow : K → K → K) (N : Int)
    (tg cur : Pose K) (e : K) (msg : LowCmd K) (aj : Fin 9 → JointIndex)
    (hinj : Function.Injective (fun j => (aj j).toFin)) (ss : Int)
    (i : Nat) (hi : (i : Int) < N) (j : Fin 9) :
    ((updateJointPositionsR rnd pow N tg cur e msg aj ss).written[i]?).map
        (fun f => setpoint aj f j)
      = some (rnd (cur j + rnd (rnd (tg j - cur j) * pow (easeTR rnd N i) e))) := by
  rw [updateJointPositionsR_written, List.getElem?_map, List.getElem?_range (by omega)]
  simp only [Option.map_some', setpoint]
  rw [ticksR_succ, tickR_msg_joint rnd pow N _ _ e aj hinj]

/-- The desired pose that the rounded `updateJointPositions` leaves after at least one
pass. -/
theorem updateJointPositionsR_pose (rnd : K → K) (pow : K → K → K) (N : Int) (hN : 1 ≤ N)
    (tg cur : Pose K) (e : K) (msg : LowCmd K) (aj : Fin 9 → JointIndex) (ss : Int)
    (j : Fin 9) :
    (updateJointPositionsR rnd pow N tg cur e msg aj ss).current_jpos_des j
      = rnd (cur j + rnd (rnd (tg j - cur j) * pow (easeTR rnd N (N - 1).toNat) e)) := by
  have h : N.toNat = (N - 1).toNat + 1 := by omega
  simp only [updateJointPositionsR]
  rw [h, ticksR_succ, tickR_pose]

theorem updateJointPositionsR_last (rnd : K → K) (pow : K → K → K) (N : Int) (hN : 1 ≤ N)
    (tg cur : Pose K) (e : K) (msg : LowCmd K) (aj : Fin 9 → JointIndex) (ss : Int) :
    (updateJointPositionsR rnd pow N tg cur e msg aj ss).written.getLast?
      = (updateJointPositionsR rnd pow N tg cur e msg aj ss).written[(N - 1).toNat]? := by
  rw [List.getLast?_eq_getElem?, updateJointPositionsR_length]
  congr 1
  omega

/-- The normalised time of the last step of the rounded loop is 1. -/
theorem easeTR_last (rnd : K → K) (h1 : rnd 1 = 1) (N : Int) (hN : 1 < N)
    (hdiv : rnd ((N - 1 : Int) : K) ≠ 0) : easeTR rnd N (N - 1).toNat = 1 := by
  have hc : (((N - 1).toNat : Nat) : K) = ((N - 1 : Int) : K) := by
    have : (((N - 1).toNat : Nat) : Int) = N - 1 := Int.toNat_of_nonneg (by omega)
    rw [← this]
    simp
  unfold easeTR
  rw [if_neg (by omega), hc, div_self hdiv, h1]

/-- The normalised time of the rounded loop lies in `[0, 1]`. -/
theorem easeTR_mem (rnd : K → K) (hmono : Monotone rnd) (h0 : rnd 0 = 0) (h1 : rnd 1 = 1)
    (N : Int) (i : Nat) (hi : (i : Int) < N) :
    0 ≤ easeTR rnd N i ∧ easeTR rnd N i ≤ 1 := by
  unfold easeTR
  split_ifs with h
  · exact ⟨zero_le_one, le_refl 1⟩
  · have hN : (1 : K) ≤ ((N - 1 : Int) : K) := by
      have : (1 : Int) ≤ N - 1 := by omega
      exact_mod_cast this
    have hd : 1 ≤ rnd ((N - 1 : Int) : K) := by
      have := hmono hN
      rwa [h1] at this
    have hi0 : 0 ≤ rnd (i : K) := by
      have := hmono (Nat.cast_nonneg i : (0 : K) ≤ i)
      rwa [h0] at this
    have hiN : rnd (i : K) ≤ rnd ((N - 1 : Int) : K) := by
      apply hmono
      have : (i : Int) ≤ N - 1 := by omega
      exact_mod_cast this
    constructor
    · have := hmono (div_nonneg hi0 (le_trans zero_le_one hd))
      rwa [h0] at this
    · have := hmono ((div_le_one (lt_of_lt_of_le zero_lt_one hd)).2 hiN)
      rwa [h1] at this

/-- The normalised time of the rounded loop does not decrease with the step. -/
theorem easeTR_mono (rnd : K → K) (hmono : Monotone rnd) (h1 : rnd 1 = 1)
    (N : Int) (i i2 : Nat) (hi : i ≤ i2) : easeTR rnd N i ≤ easeTR rnd N i2 := by
  unfold easeTR
  split_ifs with h
  · exact le_refl 1
  · have hN : (1 : K) ≤ ((N - 1 : Int) : K) := by
      have : (1 : Int) ≤ N - 1 := by omega
      exact_mod_cast this
    have hd : 1 ≤ rnd ((N - 1 : Int) : K) := by
      have := hmono hN
      rwa [h1] at this
    have hii : rnd (i : K) ≤ rnd (i2 : K) := hmono (by exact_mod_cast hi)
    exact hmono (div_le_div_of_nonneg_right hii (le_trans zero_le_one hd))

/-- The rounded blend `start + d * s` for `d ≥ 0`: it grows with `s` and stays between
the start and the rounded sum `start + d`. -/
theorem blendR_up (rnd : K → K) (hmono : Monotone rnd) (h0 : rnd 0 = 0) (start d s s2 : K)
    (hd : 0 ≤ d) (hs : 0 ≤ s) (hss : s ≤ s2) (hs2 : s2 ≤ 1) (hstart : rnd start = start)
    (hdd : rnd d = d) :
    start ≤ rnd (start + rnd (d * s)) ∧
    rnd (start + rnd (d * s)) ≤ rnd (start + rnd (d * s2)) ∧
    rnd (start + rnd (d * s2)) ≤ rnd (start + d) := by
  have ha : 0 ≤ rnd (d * s) := by
    have := hmono (mul_nonneg hd hs)
    rwa [h0] at this
  have hc : rnd (d * s2) ≤ d := by
    have := hmono (mul_le_of_le_one_right hd hs2)
    rwa [hdd] at this
  refine ⟨?_, ?_, ?_⟩
  · have := hmono (le_add_of_nonneg_right ha : start ≤ start + rnd (d * s))
    rwa [hstart] at this
  · exact hmono (add_le_add_left (hmono (mul_le_mul_of_nonneg_left hss hd)) _)
  · exact hmono (add_le_add_left hc _)

/-- The rounded blend `start + d * s` for `d ≤ 0`: it falls with `s` and stays between
the rounded sum `start + d` and the start. -/
theorem blendR_down (rnd : K → K) (hmono : Monotone rnd) (h0 : rnd 0 = 0) (start d s s2 : K)
    (hd : d ≤ 0) (hs : 0 ≤ s) (hss : s ≤ s2) (hs2 : s2 ≤ 1) (hstart : rnd start = start)
    (hdd : rnd d = d) :
    rnd (start + rnd (d * s)) ≤ start ∧
    rnd (start + rnd (d * s2)) ≤ rnd (start + rnd (d * s)) ∧
    rnd (start + d) ≤ rnd (start + rnd (d * s2)) := by
  have ha : rnd (d * s) ≤ 0 := by
    have := hmono (mul_nonpos_of_nonpos_of_nonneg hd hs)
    rwa [h0] at this
  have hc : d ≤ rnd (d * s2) := by
    have h : d ≤ d * s2 := by
      have := mul_le_mul_of_nonpos_left hs2 hd
      rwa [mul_one] at this
    have := hmono h
    rwa [hdd] at this
  refine ⟨?_, ?_, ?_⟩
  · have := hmono (add_le_of_nonpos_right ha : start + rnd (d * s) ≤ start)
    rwa [hstart] at this
  · exact hmono (add_le_add_left (hmono (mul_le_mul_of_nonpos_left hss hd)) _)
  · exact hmono (add_le_add_left hc _)


/-- The rounded sum of the start and the rounded difference misses the target by at most
the two rounding errors. -/
theorem arrivalR_err (rnd err : K → K) (herr : ∀ x, |rnd x - x| ≤ err x) (s t : K) :
    |rnd (s + rnd (t - s)) - t| ≤ err (s + rnd (t - s)) + err (t - s) := by
  have e : rnd (s + rnd (t - s)) - t
      = (rnd (s + rnd (t - s)) - (s + rnd (t - s))) + (rnd (t - s) - (t - s)) := by
    ring
  rw [e]
  exact (abs_add _ _).trans (add_le_add (herr _) (herr _))

/-- From the start 0 the rounded sum is the target, when the target is a `float`. -/
theorem arrivalR_zero (rnd : K → K) (s t : K) (hs : s = 0) (ht : rnd t = t) :
    rnd (s + rnd (t - s)) = t := by
  rw [hs, sub_zero, ht, zero_add, ht]


end Lemmas

/-! ## The claims -/

section Claims

variable {K : Type} [LinearOrderedField K]

/-- C1. EasedPower formula: for every step count `N`, start pose, target and exponent,
and every step `0 ≤ i < N`, `updateJointPositions` writes a frame number `i`, and
the position it carries for every joint `j` is
`segmentStart j + (target j - segmentStart j) * pow t exponent` with `t = i/(N-1)` if
`N > 1` and `t = 1` otherwise, where `segmentStart` is `current_jpos_des` at entry. -/
theorem easedPower_step_formula (pow : K → K → K) (N : Int) (target segmentStart : Pose K)
    (exponent : K) (msg : LowCmd K) (aj : Fin 9 → JointIndex)
    (hinj : Function.Injective (fun j => (aj j).toFin)) (start_stop : Int)
    (i : Nat) (hi : (i : Int) < N) :
    ∃ f, (updateJointPositions pow N target segmentStart exponent msg aj start_stop).written[i]?
          = some f ∧
      ∀ j, setpoint aj f j
        = segmentStart j + (target j - segmentStart j)
            * pow (if 1 < N then (i : K) / ((N : K) - 1) else 1) exponent := by
  refine ⟨_, updateJointPositions_frame pow N target segmentStart exponent msg aj start_stop i
    (by omega), ?_⟩
  intro j
  simp only [setpoint]
  rw [tick_msg_joint pow N _ _ exponent aj hinj, easeT_eq]

/-- Witness of C1: step 3 of a start-up segment of 500 steps towards `target_pos8`,
exponent 1.2, from the zero pose. -/
theorem easedPower_step_formula_witness :
    Function.Injective (fun j => (arm_joints j).toFin) ∧ ((3 : Nat) : Int) < 500 ∧
    ∃ f, (updateJointPositions (fun x y : ℝ => x ^ y) 500 target_pos8 (fun _ => 0) (6 / 5)
            zeroCmd arm_joints 1).written[3]? = some f ∧
      ∀ j, setpoint arm_joints f j
        = (fun _ => (0 : ℝ)) j + (target_pos8 j - (fun _ => (0 : ℝ)) j)
            * (fun x y : ℝ => x ^ y)
                (if (1 : Int) < 500 then ((3 : Nat) : ℝ) / (((500 : Int) : ℝ) - 1) else 1)
                (6 / 5) :=
  ⟨arm_joints_injective, by decide,
    easedPower_step_formula (fun x y : ℝ => x ^ y) 500 target_pos8 (fun _ => 0) (6 / 5)
      zeroCmd arm_joints arm_joints_injective 1 3 (by decide)⟩

/-- C2, as stated, fails on `float`: a call of 500 steps from `init_pos` towards the target
of the second call of `main`, with exponent `1.0f` (where `std::pow(t, 1.0f) = t`),
leaves joint 4 at `-16777215 / 2 ^ 25 = -0.49999997`, in the last frame and in
`current_jpos_des`, whereas the target of joint 4 is `-0.5f`: the difference
`-0.5f - 0.29f` is rounded before it is added to `0.29f`. -/
theorem arrival_rounding_counterexample :
    ((updateJointPositionsR round32 (fun t _ => t) 500 (toFloat target_pos_vrash_chas_ruki_1)
        (toFloat init_pos) 1 zeroCmd arm_joints 0).written.getLast?).map
        (fun f => setpoint arm_joints f 4) = some (-(16777215 / 33554432)) ∧
    (updateJointPositionsR round32 (fun t _ => t) 500 (toFloat target_pos_vrash_chas_ruki_1)
        (toFloat init_pos) 1 zeroCmd arm_joints 0).current_jpos_des 4
      = -(16777215 / 33554432) ∧
    toFloat target_pos_vrash_chas_ruki_1 4 = -(1 / 2) ∧
    (-(16777215 / 33554432) : ℚ) ≠ -(1 / 2) := by
  have hA : toFloat init_pos 4 = 9730785 / 33554432 := by
    simp only [toFloat]
    rw [show (init_pos 4 : ℚ) = 29 / 100 from rfl, fl_29_100]
  have hB : toFloat target_pos_vrash_chas_ruki_1 4 = -(1 / 2) := by
    simp only [toFloat]
    rw [show (target_pos_vrash_chas_ruki_1 4 : ℚ) = -(1 / 2) from rfl, fl_neg_half]
  have hdiv : round32 (((500 : Int) - 1 : Int) : ℚ) ≠ 0 := by
    rw [show ((((500 : Int) - 1 : Int)) : ℚ) = 499 by norm_num, round32_499]
    norm_num
  have ht := easeTR_last round32 round32_one 500 (by decide) hdiv
  have hval : round32 (toFloat init_pos 4
      + round32 (round32 (toFloat target_pos_vrash_chas_ruki_1 4 - toFloat init_pos 4)
          * (fun t _ => t) (easeTR round32 500 ((500 : Int) - 1).toNat) (1 : ℚ)))
      = -(16777215 / 33554432) := by
    rw [ht, hA, hB]
    simp only [mul_one, round32_idem]
    rw [fl_delta_29, fl_arrival_29]
  refine ⟨?_, ?_, hB, by norm_num⟩
  · rw [updateJointPositionsR_last _ _ 500 (by decide),
      updateJointPositionsR_setpoint _ _ 500 _ _ _ _ _ arm_joints_injective 0
        ((500 : Int) - 1).toNat (by decide) 4, hval]
  · rw [updateJointPositionsR_pose _ _ 500 (by decide), hval]

/-- C2, amended. On `float` (a monotone, idempotent rounding `rnd` with `rnd 1 = 1` that
moves `x` by at most `err x`), for every segment of `N > 1` steps and every exponent
(`pow 1 exponent = 1`), the position carried by the frame of step `N - 1`, which is the
last frame, and left in `current_jpos_des`, is the rounded sum of the start and the
rounded difference `target - start`; it misses the target by at most the two rounding
errors, and it is the target for a joint that starts at 0 and whose target is a
`float`, as in the scenario from the zero pose. -/
theorem easedPower_arrival_rounded (rnd : K → K) (hmono : Monotone rnd)
    (hidem : ∀ x, rnd (rnd x) = rnd x) (h1 : rnd 1 = 1) (err : K → K)
    (herr : ∀ x, |rnd x - x| ≤ err x) (pow : K → K → K) (N : Int) (hN : 1 < N)
    (target segmentStart : Pose K) (exponent : K) (hpow : pow 1 exponent = 1) (msg : LowCmd K) (aj : Fin 9 → JointIndex)
    (hinj : Function.Injective (fun j => (aj j).toFin)) (start_stop : Int) (j : Fin 9) :
    ((updateJointPositionsR rnd pow N target segmentStart exponent msg aj
        start_stop).written[(N - 1).toNat]?).map (fun f => setpoint aj f j)
      = some (rnd (segmentStart j + rnd (target j - segmentStart j))) ∧
    ((updateJointPositionsR rnd pow N target segmentStart exponent msg aj
        start_stop).written.getLast?).map (fun f => setpoint aj f j)
      = some (rnd (segmentStart j + rnd (target j - segmentStart j))) ∧
    (updateJointPositionsR rnd pow N target segmentStart exponent msg aj
        start_stop).current_jpos_des j
      = rnd (segmentStart j + rnd (target j - segmentStart j)) ∧
    |rnd (segmentStart j + rnd (target j - segmentStart j)) - target j|
      ≤ err (segmentStart j + rnd (target j - segmentStart j))
        + err (target j - segmentStart j) ∧
    (segmentStart j = 0 → rnd (target j) = target j →
      rnd (segmentStart j + rnd (target j - segmentStart j)) = target j) := by
  have hdiv : rnd ((N - 1 : Int) : K) ≠ 0 := by
    have hN1 : (1 : K) ≤ ((N - 1 : Int) : K) := by
      have : (1 : Int) ≤ N - 1 := by omega
      exact_mod_cast this
    have := hmono hN1
    rw [h1] at this
    exact ne_of_gt (lt_of_lt_of_le zero_lt_one this)
  have ht := easeTR_last rnd h1 N hN hdiv
  have hfr := updateJointPositionsR_setpoint rnd pow N target segmentStart exponent msg aj hinj
    start_stop (N - 1).toNat (by omega) j
  rw [ht, hpow, mul_one, hidem] at hfr
  refine ⟨hfr, ?_, ?_, arrivalR_err rnd err herr _ _, arrivalR_zero rnd _ _⟩
  · rw [updateJointPositionsR_last rnd pow N (by omega)]
    exact hfr
  · rw [updateJointPositionsR_pose rnd pow N (by omega), ht, hpow, mul_one, hidem]

/-- Witness of C2, amended: the scenario on binary32, 500 steps from the zero pose towards
`target_pos8`, joint 0. -/
theorem easedPower_arrival_rounded_witness :
    Monotone round32 ∧ (∀ x, round32 (round32 x) = round32 x) ∧ round32 1 = 1 ∧
    (∀ x, |round32 x - x| ≤ (fun y => ulp32 |y| / 2) x) ∧ (1 : Int) < 500 ∧
    (fun t _ => t : ℚ → ℚ → ℚ) 1 1 = 1 ∧
    Function.Injective (fun j => (arm_joints j).toFin) ∧
    (fun _ => (0 : ℚ)) (0 : Fin 9) = 0 ∧
    round32 (toFloat target_pos8 0) = toFloat target_pos8 0 ∧
    (updateJointPositionsR round32 (fun t _ => t) 500 (toFloat target_pos8) (fun _ => 0) 1
        zeroCmd arm_joints 1).current_jpos_des 0 = toFloat target_pos8 0 := by
  have hf : round32 (toFloat target_pos8 0) = toFloat target_pos8 0 := round32_idem _
  have h := easedPower_arrival_rounded round32 round32_mono round32_idem round32_one
    (fun y => ulp32 |y| / 2) round32_err (fun t _ => t) 500 (by decide)
    (toFloat target_pos8) (fun _ => 0) 1 rfl zeroCmd arm_joints arm_joints_injective 1 0
  exact ⟨round32_mono, round32_idem, round32_one, round32_err, by decide, rfl,
    arm_joints_injective, rfl, hf, h.2.2.1.trans (h.2.2.2.2 rfl hf)⟩

/-- C4. UniformRateClamp idempotence after arrival: for every target, every bound with
`rate j ≥ 0` and every state whose pose equals the target, one further pass of the
update leaves the pose unchanged. -/
theorem rateClamp_idempotent (target rate : Pose K) (hr : ∀ j, 0 ≤ rate j)
    (aj : Fin 9 → JointIndex) (st : Run K) (hst : ∀ j, st.current_jpos_des j = target j) :
    ∀ j, (clampTick target rate aj st).current_jpos_des j = st.current_jpos_des j := by
  intro j
  rw [clampTick_pose, hst j, sub_self, clamp_zero _ (hr j), add_zero]

/-- Witness of C4: the pose `target_pos_dance2_prepos` with the bound `1/200` on every
joint. -/
theorem rateClamp_idempotent_witness :
    (∀ j : Fin 9, (0 : ℚ) ≤ (fun _ => (1 / 200 : ℚ)) j) ∧
    (∀ j, (Run.mk [] target_pos_dance2_prepos zeroCmd (1 : ℚ)).current_jpos_des j
        = target_pos_dance2_prepos j) ∧
    ∀ j, (clampTick target_pos_dance2_prepos (fun _ => (1 / 200 : ℚ)) arm_joints
          (Run.mk [] target_pos_dance2_prepos zeroCmd (1 : ℚ))).current_jpos_des j
        = (Run.mk [] target_pos_dance2_prepos zeroCmd (1 : ℚ)).current_jpos_des j :=
  ⟨fun _ => by norm_num, fun _ => rfl,
    rateClamp_idempotent target_pos_dance2_prepos (fun _ => (1 / 200 : ℚ))
      (fun _ => by norm_num) arm_joints (Run.mk [] target_pos_dance2_prepos zeroCmd (1 : ℚ))
      (fun _ => rfl)⟩

/-- C5, as stated, fails. (1) An eased segment of one step: after the segment towards
`target_pos8`, whose last frame carries 0.39 for joint 0, the only frame of a one-step
segment towards the zero pose carries 0. (2) An eased segment with exponent 0, where
`pow(0, 0) = 1`: the first frame of a two-step segment towards the zero pose carries 0
as well. -/
theorem continuity_counterexample :
    ((updateJointPositions (fun x y : ℝ => x ^ y) 500 target_pos8 (fun _ => 0) (6 / 5)
        zeroCmd arm_joints 1).written.getLast?).map (fun f => setpoint arm_joints f 0)
      = some (39 / 100) ∧
    ((updateJointPositions (fun x y : ℝ => x ^ y) 1 (fun _ => 0)
        (updateJointPositions (fun x y : ℝ => x ^ y) 500 target_pos8 (fun _ => 0) (6 / 5)
          zeroCmd arm_joints 1).current_jpos_des (6 / 5)
        (updateJointPositions (fun x y : ℝ => x ^ y) 500 target_pos8 (fun _ => 0) (6 / 5)
          zeroCmd arm_joints 1).msg arm_joints 0).written.head?).map
        (fun f => setpoint arm_joints f 0) = some 0 ∧
    ((updateJointPositions (fun x y : ℝ => x ^ y) 2 (fun _ => 0)
        (updateJointPositions (fun x y : ℝ => x ^ y) 500 target_pos8 (fun _ => 0) (6 / 5)
          zeroCmd arm_joints 1).current_jpos_des 0
        (updateJointPositions (fun x y : ℝ => x ^ y) 500 target_pos8 (fun _ => 0) (6 / 5)
          zeroCmd arm_joints 1).msg arm_joints 0).written.head?).map
        (fun f => setpoint arm_joints f 0) = some 0 ∧
    (0 : ℝ) ≠ 39 / 100 := by
  refine ⟨?_, ?_, ?_, by norm_num⟩
  · rw [updateJointPositions_last_setpoint _ 500 (by decide) _ _ _ _ _ arm_joints_injective,
      updateJointPositions_pose _ 500 (by decide), easeT_last 500 (by decide)]
    simp [target_pos8]
  · rw [List.head?_eq_getElem?,
      updateJointPositions_setpoint _ 1 _ _ _ _ _ arm_joints_injective 0 0 (by decide)]
    simp [easeT]
  · rw [List.head?_eq_getElem?,
      updateJointPositions_setpoint _ 2 _ _ _ _ _ arm_joints_injective 0 0 (by decide)]
    simp [easeT]

/-- C5, amended. Two consecutive calls of `updateJointPositions` run on the same
desired-pose state, the first of `N1 ≥ 1` steps, the second of `N2 > 1` steps with an
exponent that has `pow 0 exponent = 0`: the first frame of the second call carries, for
every joint, the position that the last frame of the first call carries. -/
theorem segment_continuity (pow : K → K → K) (N1 N2 : Int) (hN1 : 1 ≤ N1) (hN2 : 1 < N2)
    (tg1 tg2 cur : Pose K) (e1 e2 : K) (hpow : pow 0 e2 = 0) (msg : LowCmd K)
    (aj : Fin 9 → JointIndex) (hinj : Function.Injective (fun j => (aj j).toFin))
    (ss1 ss2 : Int) (j : Fin 9) :
    ∃ a,
      ((updateJointPositions pow N1 tg1 cur e1 msg aj ss1).written.getLast?).map
          (fun f => setpoint aj f j) = some a ∧
      ((updateJointPositions pow N2 tg2
          (updateJointPositions pow N1 tg1 cur e1 msg aj ss1).current_jpos_des e2
          (updateJointPositions pow N1 tg1 cur e1 msg aj ss1).msg aj ss2).written.head?).map
          (fun f => setpoint aj f j) = some a :=
  ⟨_, updateJointPositions_last_setpoint pow N1 hN1 tg1 cur e1 msg aj hinj ss1 j,
    updateJointPositions_first_setpoint pow N2 hN2 tg2 _ e2 hpow _ aj hinj ss2 j⟩

/-- Witness of C5, amended: two consecutive eased segments of 500 steps each, the
second one with exponent 1.5. -/
theorem segment_continuity_witness :
    (1 : Int) ≤ 500 ∧ (1 : Int) < 500 ∧ (fun x y : ℝ => x ^ y) 0 (3 / 2) = 0 ∧
    Function.Injective (fun j => (arm_joints j).toFin) ∧
    ∃ a,
      ((updateJointPositions (fun x y : ℝ => x ^ y) 500 target_pos8 (fun _ => 0) (6 / 5)
          zeroCmd arm_joints 1).written.getLast?).map
          (fun f => setpoint arm_joints f 0) = some a ∧
      ((updateJointPositions (fun x y : ℝ => x ^ y) 500 (fun _ => 0)
          (updateJointPositions (fun x y : ℝ => x ^ y) 500 target_pos8 (fun _ => 0) (6 / 5)
            zeroCmd arm_joints 1).current_jpos_des (3 / 2)
          (updateJointPositions (fun x y : ℝ => x ^ y) 500 target_pos8 (fun _ => 0) (6 / 5)
            zeroCmd arm_joints 1).msg arm_joints 0).written.head?).map
          (fun f => setpoint arm_joints f 0) = some a :=
  ⟨by decide, by decide, Real.zero_rpow (by norm_num), arm_joints_injective,
    segment_continuity (fun x y : ℝ => x ^ y) 500 500 (by decide) (by decide) target_pos8
      (fun _ => 0) (fun _ => 0) (6 / 5) (3 / 2) (Real.zero_rpow (by norm_num)) zeroCmd
      arm_joints arm_joints_injective 1 0 0⟩

/-- C6, as stated, fails on `float`: a call of one step from `init_pos` towards the target
of the second call of `main` writes one frame, which carries for joint 4 the value
`-16777215 / 2 ^ 25 = -0.49999997`, whereas the target of joint 4 is `-0.5f`. -/
theorem single_step_rounding_counterexample :
    (updateJointPositionsR round32 (fun t _ => t) 1 (toFloat target_pos_vrash_chas_ruki_1)
        (toFloat init_pos) 1 zeroCmd arm_joints 0).written.length = 1 ∧
    ((updateJointPositionsR round32 (fun t _ => t) 1 (toFloat target_pos_vrash_chas_ruki_1)
        (toFloat init_pos) 1 zeroCmd arm_joints 0).written[0]?).map
        (fun f : LowCmd ℚ => setpoint arm_joints f 4) = some (-(16777215 / 33554432)) ∧
    toFloat target_pos_vrash_chas_ruki_1 4 = -(1 / 2) ∧
    (-(16777215 / 33554432) : ℚ) ≠ -(1 / 2) := by
  have hA : toFloat init_pos 4 = 9730785 / 33554432 := by
    simp only [toFloat]
    rw [show (init_pos 4 : ℚ) = 29 / 100 from rfl, fl_29_100]
  have hB : toFloat target_pos_vrash_chas_ruki_1 4 = -(1 / 2) := by
    simp only [toFloat]
    rw [show (target_pos_vrash_chas_ruki_1 4 : ℚ) = -(1 / 2) from rfl, fl_neg_half]
  refine ⟨?_, ?_, hB, by norm_num⟩
  · rw [updateJointPositionsR_length]
    rfl
  · rw [updateJointPositionsR_setpoint _ _ 1 _ _ _ _ _ arm_joints_injective 0 0 (by decide) 4,
      hA, hB]
    simp only [easeTR, le_refl, if_true, mul_one, round32_idem]
    rw [fl_delta_29, fl_arrival_29]

/-- C6, amended. On `float` (an idempotent rounding `rnd` that moves `x` by at most
`err x`), a call of `updateJointPositions` with one step writes exactly one frame, for
every start pose, target and exponent (`pow 1 exponent = 1`); the position it carries
for joint `j` is the rounded sum of the start and the rounded difference
`target - start`, which misses the target by at most the two rounding errors and is the
target for a joint that starts at 0 and whose target is a `float`. -/
theorem single_step_rounded (rnd : K → K) (hidem : ∀ x, rnd (rnd x) = rnd x)
    (err : K → K) (herr : ∀ x, |rnd x - x| ≤ err x) (pow : K → K → K) (target start : Pose K)
    (exponent : K) (hpow : pow 1 exponent = 1) (msg : LowCmd K) (aj : Fin 9 → JointIndex)
    (hinj : Function.Injective (fun j => (aj j).toFin)) (start_stop : Int) (j : Fin 9) :
    (updateJointPositionsR rnd pow 1 target start exponent msg aj start_stop).written.length
      = 1 ∧
    ((updateJointPositionsR rnd pow 1 target start exponent msg aj start_stop).written[0]?).map
        (fun f => setpoint aj f j)
      = some (rnd (start j + rnd (target j - start j))) ∧
    |rnd (start j + rnd (target j - start j)) - target j|
      ≤ err (start j + rnd (target j - start j)) + err (target j - start j) ∧
    (start j = 0 → rnd (target j) = target j →
      rnd (start j + rnd (target j - start j)) = target j) := by
  refine ⟨?_, ?_, arrivalR_err rnd err herr _ _, arrivalR_zero rnd _ _⟩
  · rw [updateJointPositionsR_length]
    rfl
  · rw [updateJointPositionsR_setpoint rnd pow 1 target start exponent msg aj hinj start_stop 0
      (by decide) j]
    simp only [easeTR, le_refl, if_true, hpow, mul_one, hidem]

/-- Witness of C6, amended: one step on binary32 from the zero pose towards `target_pos8`,
joint 0. -/
theorem single_step_rounded_witness :
    (∀ x, round32 (round32 x) = round32 x) ∧
    (∀ x, |round32 x - x| ≤ (fun y => ulp32 |y| / 2) x) ∧
    (fun t _ => t : ℚ → ℚ → ℚ) 1 1 = 1 ∧
    Function.Injective (fun j => (arm_joints j).toFin) ∧
    (fun _ => (0 : ℚ)) (0 : Fin 9) = 0 ∧
    round32 (toFloat target_pos8 0) = toFloat target_pos8 0 ∧
    ((updateJointPositionsR round32 (fun t _ => t) 1 (toFloat target_pos8) (fun _ => 0) 1
        zeroCmd arm_joints 1).written[0]?).map (fun f => setpoint arm_joints f 0)
      = some (toFloat target_pos8 0) := by
  have hf : round32 (toFloat target_pos8 0) = toFloat target_pos8 0 := round32_idem _
  have h := single_step_rounded round32 round32_idem (fun y => ulp32 |y| / 2) round32_err
    (fun t _ => t) (toFloat target_pos8) (fun _ => 0) 1 rfl zeroCmd arm_joints
    arm_joints_injective 1 0
  exact ⟨round32_idem, round32_err, rfl, arm_joints_injective, rfl, hf,
    h.2.1.trans (congrArg some (h.2.2.2 rfl hf))⟩

/-- C7, evaluated on the call `updateJointPositions(500, init_pos, ..., 1)` of `main`:
whatever the target, the pose, the exponent and the message are, the authority values
of the 500 frames are 499 times 0 and then 1, because `(i + 1) / num_time_steps` is a
division of two `int`. The increments are not equal. -/
theorem rampUp_is_a_step (pow : K → K → K) (target cur : Pose K) (e : K) (msg : LowCmd K) :
    (updateJointPositions pow 500 target cur e msg arm_joints 1).written.map authority
      = List.replicate 499 (0 : K) ++ [1] := by
  rw [updateJointPositions_authorities pow 500 target cur e msg arm_joints
    arm_joints_ne_notUsed]
  have h500 : (500 : Int).toNat = 499 + 1 := rfl
  rw [h500, List.range_succ, List.map_append]
  congr 1
  · apply List.eq_replicate_iff.2
    refine ⟨by simp, ?_⟩
    intro b hb
    obtain ⟨i, hi, rfl⟩ := List.mem_map.1 hb
    have hi2 := List.mem_range.1 hi
    rw [if_pos rfl, tdiv_step 500 i (by omega), if_neg (by omega)]
    simp
  · rw [List.map_cons, List.map_nil, if_pos rfl, tdiv_step 500 499 (by decide)]
    simp

/-- C8. Monotonic bounded authority: for every `N` and every step `i` with `i + 1 < N`,
the authority of frame `i + 1` is at least that of frame `i` when `start_stop = 1` and
at most that of frame `i` when `start_stop = 2`; every authority value written by
`updateJointPositions` under either ramp, and by the stop loop of `test123.cpp`
(whatever `delta_weight`, the entry weight and the number of passes are), lies in
`[0, 1]`. -/
theorem authority_monotone_bounded (pow : K → K → K) (N : Int) (target cur : Pose K) (e : K)
    (msg : LowCmd K) :
    (∀ i : Nat, (i : Int) + 1 < N → ∃ a b,
      ((updateJointPositions pow N target cur e msg arm_joints 1).written[i]?).map authority
        = some a ∧
      ((updateJointPositions pow N target cur e msg arm_joints 1).written[i + 1]?).map authority
        = some b ∧ a ≤ b) ∧
    (∀ i : Nat, (i : Int) + 1 < N → ∃ a b,
      ((updateJointPositions pow N target cur e msg arm_joints 2).written[i]?).map authority
        = some a ∧
      ((updateJointPositions pow N target cur e msg arm_joints 2).written[i + 1]?).map authority
        = some b ∧ b ≤ a) ∧
    (∀ a ∈ (updateJointPositions pow N target cur e msg arm_joints 1).written.map authority,
      0 ≤ a ∧ a ≤ 1) ∧
    (∀ a ∈ (updateJointPositions pow N target cur e msg arm_joints 2).written.map authority,
      0 ≤ a ∧ a ≤ 1) ∧
    (∀ (dw w : K) (n : Int) (cur1 : Pose K) (msg1 : LowCmd K),
      ∀ a ∈ (stopLoop dw n cur1 msg1 w).written.map authority, 0 ≤ a ∧ a ≤ 1) := by
  refine ⟨?_, ?_, ?_, ?_, ?_⟩
  · intro i hi
    refine ⟨_, _,
      updateJointPositions_authority_at pow N target cur e msg arm_joints
        arm_joints_ne_notUsed 1 i (by omega),
      updateJointPositions_authority_at pow N target cur e msg arm_joints
        arm_joints_ne_notUsed 1 (i + 1) (by push_cast; omega), ?_⟩
    rw [if_pos rfl, if_pos rfl, tdiv_step N i (by omega),
      tdiv_step N (i + 1) (by push_cast; omega), if_neg (by omega)]
    split_ifs <;> simp
  · intro i hi
    refine ⟨_, _,
      updateJointPositions_authority_at pow N target cur e msg arm_joints
        arm_joints_ne_notUsed 2 i (by omega),
      updateJointPositions_authority_at pow N target cur e msg arm_joints
        arm_joints_ne_notUsed 2 (i + 1) (by push_cast; omega), ?_⟩
    have hNK : (0 : K) < (N : K) := by exact_mod_cast (by omega : (0 : Int) < N)
    rw [if_neg (by decide), if_pos rfl, if_neg (by decide), if_pos rfl]
    have hle : (i : K) / (N : K) ≤ ((i + 1 : Nat) : K) / (N : K) := by
      apply div_le_div_of_nonneg_right _ (le_of_lt hNK)
      push_cast
      linarith
    linarith
  · intro a ha
    rw [updateJointPositions_authorities pow N target cur e msg arm_joints
      arm_joints_ne_notUsed] at ha
    obtain ⟨i, hi, rfl⟩ := List.mem_map.1 ha
    have hi2 := List.mem_range.1 hi
    rw [if_pos rfl, tdiv_step N i (by omega)]
    split_ifs <;> simp
  · intro a ha
    rw [updateJointPositions_authorities pow N target cur e msg arm_joints
      arm_joints_ne_notUsed] at ha
    obtain ⟨i, hi, rfl⟩ := List.mem_map.1 ha
    have hi2 := List.mem_range.1 hi
    have hiN : (i : Int) < N := by omega
    have hNK : (0 : K) < (N : K) := by exact_mod_cast (by omega : (0 : Int) < N)
    have hiK : (i : K) ≤ (N : K) := by exact_mod_cast (le_of_lt hiN)
    have h0 : (0 : K) ≤ (i : K) / (N : K) := div_nonneg (Nat.cast_nonneg i) (le_of_lt hNK)
    have h1 : (i : K) / (N : K) ≤ 1 := (div_le_one hNK).2 hiK
    rw [if_neg (by decide), if_pos rfl]
    constructor <;> linarith
  · intro dw w n cur1 msg1 a ha
    rw [stopLoop_authorities] at ha
    obtain ⟨i, _, rfl⟩ := List.mem_map.1 ha
    exact clamp_mem _ 0 1 zero_le_one

/-- Witness of C8: steps 3 and 4 of a start-up segment of 500 steps. -/
theorem authority_monotone_bounded_witness :
    ((3 : Nat) : Int) + 1 < 500 ∧ ∃ a b : ℝ,
      ((updateJointPositions (fun x y : ℝ => x ^ y) 500 target_pos8 (fun _ => 0) (6 / 5)
          zeroCmd arm_joints 1).written[3]?).map authority = some a ∧
      ((updateJointPositions (fun x y : ℝ => x ^ y) 500 target_pos8 (fun _ => 0) (6 / 5)
          zeroCmd arm_joints 1).written[3 + 1]?).map authority = some b ∧ a ≤ b :=
  ⟨by decide,
    (authority_monotone_bounded (fun x y : ℝ => x ^ y) 500 target_pos8 (fun _ => 0) (6 / 5)
      zeroCmd).1 3 (by decide)⟩

/-- C9, evaluated on the program's own values: the last frame of the shutdown call
`updateJointPositions(400, target_pos8, ..., 2)` of `test.cpp` carries the authority
`1/400`, and the last frame of the stop loop of `test123.cpp`, entered with weight 1
and run for `stop_time_steps = 100` passes with `delta_weight = 0.004`, carries the
authority `0.6`. Neither is 0. -/
theorem authority_not_released (pow : K → K → K) (target cur : Pose K) (e : K)
    (msg : LowCmd K) (cur1 : Pose ℚ) (msg1 : LowCmd ℚ) :
    ((updateJointPositions pow 400 target cur e msg arm_joints 2).written.getLast?).map
        authority = some (1 / 400) ∧
    stop_time_steps = 100 ∧ delta_weight = 1 / 250 ∧
    ((stopLoop delta_weight stop_time_steps cur1 msg1 1).written.getLast?).map authority
      = some (3 / 5) := by
  have hsteps : stop_time_steps = 100 := by
    norm_num [stop_time_steps, static_cast_int, stop_time, control_dt]
  have hdelta : delta_weight = 1 / 250 := by
    norm_num [delta_weight, weight_rate, control_dt]
  refine ⟨?_, hsteps, hdelta, ?_⟩
  · have h400 : (400 : Int).toNat = 399 + 1 := rfl
    rw [getLast?_map_comm, updateJointPositions_authorities pow 400 target cur e msg
      arm_joints arm_joints_ne_notUsed, h400, getLast?_map_range, if_neg (by decide),
      if_pos rfl]
    congr 1
    norm_num
  · have h100 : (100 : Int).toNat = 99 + 1 := rfl
    rw [hsteps, hdelta, getLast?_map_comm, stopLoop_authorities, h100, getLast?_map_range,
      stopTicks_weight (1 / 250) (by norm_num) _ (le_refl _) 99 (by norm_num)]
    congr 1
    norm_num [clamp]

/-- C10. Authority transition None holds the last value: for every call with
`start_stop = 0` (any `N`, target, exponent) and every prior message, the call writes
`N` frames (none if `N < 1`) and the authority slot of every one of them holds the
value it had before the call. -/
theorem none_holds_authority (pow : K → K → K) (N : Int) (target cur : Pose K) (e : K)
    (msg : LowCmd K) :
    (updateJointPositions pow N target cur e msg arm_joints 0).written.map authority
      = List.replicate N.toNat (authority msg) := by
  rw [updateJointPositions_authorities pow N target cur e msg arm_joints
    arm_joints_ne_notUsed]
  apply List.eq_replicate_iff.2
  refine ⟨by simp, ?_⟩
  intro b hb
  obtain ⟨i, _, rfl⟩ := List.mem_map.1 hb
  rw [if_neg (by decide), if_neg (by decide)]

/-- C11. Command frame contents: in every frame `i` that `updateJointPositions` writes,
the slot of each of the nine commanded joints `j` carries as position the desired pose
of joint `j` at that step, velocity 0, proportional gain 60, derivative gain 1.5 and
the feed-forward torque 1, the same constant in every frame. -/
theorem command_frame_contents (pow : K → K → K) (N : Int) (target segmentStart : Pose K)
    (exponent : K) (msg : LowCmd K) (aj : Fin 9 → JointIndex)
    (hinj : Function.Injective (fun j => (aj j).toFin)) (start_stop : Int)
    (i : Nat) (hi : (i : Int) < N) :
    ∃ f, (updateJointPositions pow N target segmentStart exponent msg aj start_stop).written[i]?
          = some f ∧
      ∀ j, (f (aj j).toFin).q
            = segmentStart j + (target j - segmentStart j) * pow (easeT N i) exponent ∧
        (f (aj j).toFin).dq = 0 ∧ (f (aj j).toFin).kp = 60 ∧
        (f (aj j).toFin).kd = 3 / 2 ∧ (f (aj j).toFin).tau = 1 := by
  refine ⟨_, updateJointPositions_frame pow N target segmentStart exponent msg aj start_stop i
    (by omega), ?_⟩
  intro j
  rw [tick_msg_joint pow N _ _ exponent aj hinj]
  exact ⟨rfl, rfl, rfl, rfl, rfl⟩

/-- Witness of C11: frame 3 of the shutdown call of `test.cpp`, 400 steps. -/
theorem command_frame_contents_witness :
    Function.Injective (fun j => (arm_joints j).toFin) ∧ ((3 : Nat) : Int) < 400 ∧
    ∃ f, (updateJointPositions (fun x y : ℝ => x ^ y) 400 target_pos8 (fun _ => 0) (6 / 5)
            zeroCmd arm_joints 2).written[3]? = some f ∧
      ∀ j, (f (arm_joints j).toFin).q
            = (fun _ => (0 : ℝ)) j + (target_pos8 j - (fun _ => (0 : ℝ)) j)
                * (fun x y : ℝ => x ^ y) (easeT 400 3) (6 / 5) ∧
        (f (arm_joints j).toFin).dq = 0 ∧ (f (arm_joints j).toFin).kp = 60 ∧
        (f (arm_joints j).toFin).kd = 3 / 2 ∧ (f (arm_joints j).toFin).tau = 1 :=
  ⟨arm_joints_injective, by decide,
    command_frame_contents (fun x y : ℝ => x ^ y) 400 target_pos8 (fun _ => 0) (6 / 5)
      zeroCmd arm_joints arm_joints_injective 2 3 (by decide)⟩

/-- C13. A call of `updateJointPositions` with `num_time_steps < 1` writes no frame and
leaves the desired pose `current_jpos_des` and the whole message, the authority slot
included, as they were, whatever the target, the exponent and `start_stop` are. -/
theorem malformed_segment_no_effect (pow : K → K → K) (N : Int) (hN : N < 1)
    (target cur : Pose K) (e : K) (msg : LowCmd K) (aj : Fin 9 → JointIndex)
    (start_stop : Int) :
    (updateJointPositions pow N target cur e msg aj start_stop).written = [] ∧
    (updateJointPositions pow N target cur e msg aj start_stop).current_jpos_des = cur ∧
    (updateJointPositions pow N target cur e msg aj start_stop).msg = msg := by
  have h0 : N.toNat = 0 := by omega
  simp only [updateJointPositions]
  rw [h0, ticks_zero]
  exact ⟨rfl, rfl, rfl⟩

/-- Witness of C13: a call with `num_time_steps = -3` and `start_stop = 2`. -/
theorem malformed_segment_no_effect_witness :
    (-3 : Int) < 1 ∧
    (updateJointPositions (fun x y : ℝ => x ^ y) (-3) target_pos8 (fun _ => 0) (6 / 5)
        zeroCmd arm_joints 2).written = [] ∧
    (updateJointPositions (fun x y : ℝ => x ^ y) (-3) target_pos8 (fun _ => 0) (6 / 5)
        zeroCmd arm_joints 2).current_jpos_des = (fun _ => 0) ∧
    (updateJointPositions (fun x y : ℝ => x ^ y) (-3) target_pos8 (fun _ => 0) (6 / 5)
        zeroCmd arm_joints 2).msg = zeroCmd :=
  ⟨by decide,
    malformed_segment_no_effect (fun x y : ℝ => x ^ y) (-3) (by decide) target_pos8
      (fun _ => 0) (6 / 5) zeroCmd arm_joints 2⟩

/-- C14, as stated, fails: on a channel where every send fails, the start-up call of
`test.cpp` (500 steps towards `init_pos`, from the zero pose) still hands 500 frames to
the channel; the send of frame 0 fails, that frame carries 0 for joint 0 and authority
0, and the frame of step 499 carries 0.29 and authority 1. -/
theorem send_failure_counterexample :
    ((sends (fun _ _ => false)
        (updateJointPositions (fun x y : ℝ => x ^ y) 500 init_pos (fun _ => 0) (6 / 5) zeroCmd
          arm_joints 1))[0]?).map Prod.snd = some false ∧
    (sends (fun _ _ => false)
        (updateJointPositions (fun x y : ℝ => x ^ y) 500 init_pos (fun _ => 0) (6 / 5) zeroCmd
          arm_joints 1)).length = 500 ∧
    ((sends (fun _ _ => false)
        (updateJointPositions (fun x y : ℝ => x ^ y) 500 init_pos (fun _ => 0) (6 / 5) zeroCmd
          arm_joints 1))[0]?).map (fun p => setpoint arm_joints p.1 0) = some 0 ∧
    ((sends (fun _ _ => false)
        (updateJointPositions (fun x y : ℝ => x ^ y) 500 init_pos (fun _ => 0) (6 / 5) zeroCmd
          arm_joints 1))[499]?).map (fun p => setpoint arm_joints p.1 0)
      = some (29 / 100) ∧
    ((sends (fun _ _ => false)
        (updateJointPositions (fun x y : ℝ => x ^ y) 500 init_pos (fun _ => 0) (6 / 5) zeroCmd
          arm_joints 1))[0]?).map (fun p => authority p.1) = some 0 ∧
    ((sends (fun _ _ => false)
        (updateJointPositions (fun x y : ℝ => x ^ y) 500 init_pos (fun _ => 0) (6 / 5) zeroCmd
          arm_joints 1))[499]?).map (fun p => authority p.1) = some 1 := by
  have hk : ∀ j, JointIndex.kNotUsedJoint.toFin ≠ (arm_joints j).toFin := by decide
  refine ⟨?_, ?_, ?_, ?_, ?_, ?_⟩
  · rw [sends_getElem?, updateJointPositions_frame _ 500 _ _ _ _ _ _ 0 (by decide)]
    rfl
  · rw [sends_length, updateJointPositions_length]
    rfl
  · rw [sends_getElem?, Option.map_map]
    exact (updateJointPositions_setpoint _ 500 _ _ _ _ _ arm_joints_injective 1 0
      (by decide) 0).trans (by simp [easeT])
  · rw [sends_getElem?, Option.map_map]
    refine (updateJointPositions_setpoint _ 500 _ _ _ _ _ arm_joints_injective 1 499
      (by decide) 0).trans ?_
    have h : (easeT 500 499 : ℝ) = 1 := easeT_last 500 (by decide)
    rw [h]
    simp [init_pos]
  · rw [sends_getElem?, Option.map_map]
    refine (updateJointPositions_authority_at _ 500 _ _ _ _ _ hk 1 0 (by decide)).trans ?_
    simp [Int.tdiv]
  · rw [sends_getElem?, Option.map_map]
    refine (updateJointPositions_authority_at _ 500 _ _ _ _ _ hk 1 499 (by decide)).trans ?_
    simp [Int.tdiv]

/-- C14, amended. The outcome of a send is not used: on every channel, whichever of its
sends fail, the frames handed to the channel by `updateJointPositions` of `N` steps are
the `N` frames that the call writes; frame `i` carries the eased pose of step `i` and
the authority of step `i` (the integer quotient `(i + 1) / N` under `start_stop = 1`,
`1 - i / N` under `start_stop = 2`, the authority of the incoming message otherwise).
A clamp loop of `n` passes hands `n` more frames to the channel. -/
theorem sends_ignore_outcome (ch : Channel K) (pow : K → K → K) (N : Int)
    (target start : Pose K) (e : K) (msg : LowCmd K) (aj : Fin 9 → JointIndex)
    (hinj : Function.Injective (fun j => (aj j).toFin))
    (hk : ∀ j, JointIndex.kNotUsedJoint.toFin ≠ (aj j).toFin) (start_stop : Int)
    (bound : Pose K) (st : Run K) (n : Nat) (i : Nat) (hi : (i : Int) < N) (j : Fin 9) :
    (sends ch (updateJointPositions pow N target start e msg aj start_stop)).map Prod.fst
      = (updateJointPositions pow N target start e msg aj start_stop).written ∧
    (sends ch (updateJointPositions pow N target start e msg aj start_stop)).length = N.toNat ∧
    ((sends ch (updateJointPositions pow N target start e msg aj start_stop))[i]?).map
        (fun p => setpoint aj p.1 j)
      = some (start j + (target j - start j) * pow (easeT N i) e) ∧
    ((sends ch (updateJointPositions pow N target start e msg aj start_stop))[i]?).map
        (fun p => authority p.1)
      = some (if start_stop = 1 then ((Int.tdiv ((i : Int) + 1) N : Int) : K)
          else if start_stop = 2 then 1 - (i : K) / (N : K) else authority msg) ∧
    (sends ch (clampTicks target bound aj st n)).length = st.written.length + n := by
  refine ⟨sends_fst _ _, ?_, ?_, ?_, ?_⟩
  · rw [sends_length, updateJointPositions_length]
  · rw [sends_getElem?, Option.map_map]
    exact updateJointPositions_setpoint pow N target start e msg aj hinj start_stop i hi j
  · rw [sends_getElem?, Option.map_map]
    exact updateJointPositions_authority_at pow N target start e msg aj hk start_stop i hi
  · rw [sends_length, clampTicks_written]
    simp

/-- Witness of C14, amended: the channel on which every send fails, frame 3 of the 500
frames of the start-up call of `test.cpp`. -/
theorem sends_ignore_outcome_witness :
    Function.Injective (fun j => (arm_joints j).toFin) ∧
    (∀ j, JointIndex.kNotUsedJoint.toFin ≠ (arm_joints j).toFin) ∧ ((3 : Nat) : Int) < 500 ∧
    (sends (fun _ _ => false)
        (updateJointPositions (fun x y : ℝ => x ^ y) 500 init_pos (fun _ => 0) (6 / 5) zeroCmd
          arm_joints 1)).length = (500 : Int).toNat ∧
    ((sends (fun _ _ => false)
        (updateJointPositions (fun x y : ℝ => x ^ y) 500 init_pos (fun _ => 0) (6 / 5) zeroCmd
          arm_joints 1))[3]?).map (fun p => authority p.1)
      = some (if (1 : Int) = 1 then ((Int.tdiv (((3 : Nat) : Int) + 1) 500 : Int) : ℝ)
          else if (1 : Int) = 2 then 1 - ((3 : Nat) : ℝ) / ((500 : Int) : ℝ)
          else authority zeroCmd) := by
  have hk : ∀ j, JointIndex.kNotUsedJoint.toFin ≠ (arm_joints j).toFin := by decide
  have h := sends_ignore_outcome (fun _ _ => false) (fun x y : ℝ => x ^ y) 500 init_pos
    (fun _ => 0) (6 / 5) zeroCmd arm_joints arm_joints_injective hk 1 (fun _ => 0)
    (Run.mk [] (fun _ => 0) zeroCmd 1) 0 3 (by decide) 0
  exact ⟨arm_joints_injective, hk, by decide, h.2.1, h.2.2.2.1⟩

/-- C15, as stated, fails for `test123.cpp`: when every joint is observed at position 1,
`current_jpos` holds 1 for joint 1, but the desired pose `current_jpos_des` with which
the first clamp loop is entered holds 0, and the first frame of that loop carries
`0.01 = 0 + clamp(0.78 - 0, -0.01, 0.01)` for joint 1. -/
theorem seeding_counterexample :
    current_jpos (fun _ => (1 : ℚ)) arm_joints 1 = 1 ∧
    (test123_main (fun _ => 1)).1.current_jpos_des 1 = 0 ∧
    ((test123_main (fun _ => 1)).2.written.head?).map (fun f => setpoint arm_joints f 1)
      = some (1 / 100) := by
  refine ⟨by rw [current_jpos_apply], ?_, ?_⟩
  · simp only [test123_main]
    rw [initLoop_current_jpos_des]
  · simp only [test123_main]
    rw [clampTicks_first_setpoint _ _ _ arm_joints_injective _ _ _ _ (by decide),
      initLoop_current_jpos_des]
    norm_num [target_pos1, max_joint_delta, max_joint_velocity, control_dt, clamp]

/-- C15, amended. In `test.cpp` the first call of `updateJointPositions` starts from the
observed pose: its `current_jpos_des` is `motor_state[arm_joints[j]].q` for every
joint. In `test123.cpp` the observed pose seeds the initialisation loop, whose first
frame carries the observed position of every joint; the desired pose
`current_jpos_des` is declared all zero after it, and the first frame of the first
clamp loop carries `0 + clamp(target_pos1[j] - 0, -max_joint_delta, max_joint_delta)`. -/
theorem initial_pose_seeding (pow : K → K → K) (motor_state_q : Nat → K)
    (motor_state_q1 : Nat → ℚ) (j : Fin 9) :
    (test_main pow motor_state_q).head?
      = some (updateJointPositions pow 500 init_pos
          (fun i => motor_state_q (arm_joints i).toFin.val) (6 / 5) zeroCmd arm_joints 1) ∧
    ((test123_main motor_state_q1).1.written.head?).map (fun f => setpoint arm_joints f j)
      = some (motor_state_q1 (arm_joints j).toFin.val) ∧
    (test123_main motor_state_q1).1.current_jpos_des j = 0 ∧
    ((test123_main motor_state_q1).2.written.head?).map (fun f => setpoint arm_joints f j)
      = some (0 + clamp (target_pos1 j - 0) (-max_joint_delta) max_joint_delta) := by
  have hsteps : init_time_steps = 5 := by
    norm_num [init_time_steps, static_cast_int, init_time, control_dt]
  have hcur : current_jpos motor_state_q arm_joints
      = fun i => motor_state_q (arm_joints i).toFin.val :=
    funext (current_jpos_apply motor_state_q arm_joints)
  refine ⟨?_, ?_, ?_, ?_⟩
  · simp only [test_main, test_calls, runCalls, List.head?_cons]
    rw [hcur]
  · simp only [test123_main]
    rw [hsteps, initLoop_first_setpoint 5 (by decide) _ _ _ arm_joints_injective,
      current_jpos_apply]
  · simp only [test123_main]
    rw [initLoop_current_jpos_des]
  · simp only [test123_main]
    rw [clampTicks_first_setpoint _ _ _ arm_joints_injective _ _ _ _ (by decide),
      initLoop_current_jpos_des]

/-- C16. Segment hand-over: in every sequence of calls of `updateJointPositions` with
`num_time_steps ≥ 1`, run on one desired pose and one message, call `i + 1` is entered
with the desired pose that call `i` left, so its `initial_jpos` (the segment start) is,
for every joint, the position carried by the last frame of call `i`. -/
theorem segment_handover (pow : K → K → K) (aj : Fin 9 → JointIndex)
    (hinj : Function.Injective (fun j => (aj j).toFin)) (prog : List (Call K))
    (hN : ∀ c ∈ prog, 1 ≤ c.num_time_steps) (cur : Pose K) (msg : LowCmd K)
    (i : Nat) (c : Call K) (hc : prog[i + 1]? = some c) :
    ∃ r, (runCalls pow aj prog cur msg)[i]? = some r ∧
      (runCalls pow aj prog cur msg)[i + 1]?
        = some (updateJointPositions pow c.num_time_steps c.target_position r.current_jpos_des
            c.phase_koef r.msg aj c.start_stop) ∧
      ∀ j, (r.written.getLast?).map (fun f => setpoint aj f j)
        = some (r.current_jpos_des j) := by
  obtain ⟨r, h1, h2⟩ := runCalls_step pow aj prog cur msg i c hc
  refine ⟨r, h1, h2, ?_⟩
  have hi : i < prog.length := by
    have := (List.getElem?_eq_some_iff.1 hc).1
    omega
  obtain ⟨cur1, msg1, h3⟩ := runCalls_block pow aj prog cur msg i prog[i]
    (List.getElem?_eq_getElem hi)
  have hr : r = updateJointPositions pow prog[i].num_time_steps prog[i].target_position cur1
      prog[i].phase_koef msg1 aj prog[i].start_stop :=
    Option.some.inj (h1.symm.trans h3)
  intro j
  rw [hr]
  exact updateJointPositions_last_setpoint pow _ (hN _ (List.getElem_mem hi)) _ _ _ _ aj hinj
    _ j

/-- Witness of C16: the first two of the eight calls of `main` in `test.cpp`. -/
theorem segment_handover_witness :
    Function.Injective (fun j => (arm_joints j).toFin) ∧
    (∀ c ∈ (test_calls : List (Call ℝ)), 1 ≤ c.num_time_steps) ∧
    (test_calls : List (Call ℝ))[0 + 1]?
      = some (Call.mk 500
          ![39 / 100, 0, 0, 1 / 10, -(1 / 2), -(2 / 10), 0, 157079632 / 100000000, 0]
          (3 / 2) 0 : Call ℝ) ∧
    ∃ r, (runCalls (fun x y : ℝ => x ^ y) arm_joints test_calls (fun _ => 0) zeroCmd)[0]?
          = some r ∧
      (runCalls (fun x y : ℝ => x ^ y) arm_joints test_calls (fun _ => 0) zeroCmd)[0 + 1]?
        = some (updateJointPositions (fun x y : ℝ => x ^ y) 500
            ![39 / 100, 0, 0, 1 / 10, -(1 / 2), -(2 / 10), 0, 157079632 / 100000000, 0]
            r.current_jpos_des (3 / 2) r.msg arm_joints 0) ∧
      ∀ j, (r.written.getLast?).map (fun f => setpoint arm_joints f j)
        = some (r.current_jpos_des j) :=
  ⟨arm_joints_injective,
    by
      intro c hc
      simp only [test_calls, List.mem_cons, List.mem_singleton, List.not_mem_nil,
        or_false] at hc
      rcases hc with h | h | h | h | h | h | h | h <;> rw [h] <;> decide,
    rfl,
    segment_handover (fun x y : ℝ => x ^ y) arm_joints arm_joints_injective test_calls
      (by
        intro c hc
        simp only [test_calls, List.mem_cons, List.mem_singleton, List.not_mem_nil,
          or_false] at hc
        rcases hc with h | h | h | h | h | h | h | h <;> rw [h] <;> decide)
      (fun _ => 0) zeroCmd 0
      (Call.mk 500
        ![39 / 100, 0, 0, 1 / 10, -(1 / 2), -(2 / 10), 0, 157079632 / 100000000, 0]
        (3 / 2) 0) rfl⟩

/-- C17. Easing shape, with `std::pow` the real power function: for `N > 1` and a step
`i < N`, the normalised time is `t = i/(N-1)`, and the shaping factor `s = t ^ exponent`
has `s ≤ t` when `exponent > 1`, `s ≥ t` when `0 < exponent < 1` and `s = t` when
`exponent = 1`; in that last case frame `i` carries the linear interpolation
`segmentStart + (target - segmentStart) * i/(N-1)`. -/
theorem easing_shape (N : Int) (hN : 1 < N) (i : Nat) (hi : (i : Int) < N) (exponent : ℝ) :
    (easeT N i : ℝ) = (i : ℝ) / ((N : ℝ) - 1) ∧
    (1 < exponent → (easeT N i : ℝ) ^ exponent ≤ easeT N i) ∧
    (0 < exponent → exponent < 1 → (easeT N i : ℝ) ≤ (easeT N i : ℝ) ^ exponent) ∧
    (exponent = 1 → (easeT N i : ℝ) ^ exponent = easeT N i ∧
      ∀ (target segmentStart : Pose ℝ) (msg : LowCmd ℝ) (start_stop : Int) (j : Fin 9),
        ((updateJointPositions (fun x y : ℝ => x ^ y) N target segmentStart exponent msg
            arm_joints start_stop).written[i]?).map (fun f => setpoint arm_joints f j)
          = some (segmentStart j
              + (target j - segmentStart j) * ((i : ℝ) / ((N : ℝ) - 1)))) := by
  have ht : (easeT N i : ℝ) = (i : ℝ) / ((N : ℝ) - 1) := by
    rw [easeT_eq, if_pos hN]
  have hN1 : (0 : ℝ) < (N : ℝ) - 1 := by
    have : (1 : ℝ) < (N : ℝ) := by exact_mod_cast hN
    linarith
  have hiN : (i : ℝ) ≤ (N : ℝ) - 1 := by
    have : (i : Int) ≤ N - 1 := by omega
    exact_mod_cast this
  have h0 : (0 : ℝ) ≤ easeT N i := by
    rw [ht]
    exact div_nonneg (Nat.cast_nonneg i) (le_of_lt hN1)
  have h1 : (easeT N i : ℝ) ≤ 1 := by
    rw [ht]
    exact (div_le_one hN1).2 hiN
  refine ⟨ht, ?_, ?_, ?_⟩
  · intro he
    rcases eq_or_lt_of_le h0 with hz | hpos
    · rw [← hz, Real.zero_rpow (by linarith)]
    · calc (easeT N i : ℝ) ^ exponent ≤ (easeT N i : ℝ) ^ (1 : ℝ) :=
            Real.rpow_le_rpow_of_exponent_ge hpos h1 (le_of_lt he)
        _ = easeT N i := Real.rpow_one _
  · intro he0 he1
    rcases eq_or_lt_of_le h0 with hz | hpos
    · rw [← hz, Real.zero_rpow (by linarith)]
    · calc (easeT N i : ℝ) = (easeT N i : ℝ) ^ (1 : ℝ) := (Real.rpow_one _).symm
        _ ≤ (easeT N i : ℝ) ^ exponent :=
            Real.rpow_le_rpow_of_exponent_ge hpos h1 (le_of_lt he1)
  · intro he
    subst he
    refine ⟨Real.rpow_one _, ?_⟩
    intro target segmentStart msg start_stop j
    rw [updateJointPositions_setpoint _ N target segmentStart 1 msg arm_joints
      arm_joints_injective start_stop i hi j]
    simp only [Real.rpow_one, ht]

/-- Witness of C17: step 3 of a segment of 500 steps with exponent 1.5. -/
theorem easing_shape_witness :
    (1 : Int) < 500 ∧ ((3 : Nat) : Int) < 500 ∧ (1 : ℝ) < 3 / 2 ∧
    (easeT 500 3 : ℝ) ^ (3 / 2 : ℝ) ≤ easeT 500 3 :=
  ⟨by decide, by decide, by norm_num,
    (easing_shape 500 (by decide) 3 (by decide) (3 / 2)).2.1 (by norm_num)⟩

/-- C19. Fixed tick interval: the sleep of step `i` is 1 ms in `test.cpp`; in
`test123.cpp` the `int` expression
`(1 + i * (phase_koef / num_time_steps)) * (phase_time / num_time_steps)` equals
`phase_time / num_time_steps` for every `i` whenever `0 ≤ phase_koef < num_time_steps`,
and it is 1 for the values of the program, `phase_koef = 0` and
`phase_time = num_time_steps = 200`. -/
theorem fixed_tick_interval (i pk pt N : Int) (h0 : 0 ≤ pk) (h1 : pk < N) :
    tickSleep i = 1 ∧
    clampTickSleep i pk pt N = Int.tdiv pt N ∧
    clampTickSleep i phase_koef phase_time num_time_steps = 1 := by
  refine ⟨rfl, ?_, ?_⟩
  · have hq : Int.tdiv pk N = 0 := by
      rw [Int.tdiv_eq_ediv h0 (by omega)]
      exact Int.ediv_eq_zero_of_lt h0 h1
    simp [clampTickSleep, hq]
  · have hq : Int.tdiv phase_koef num_time_steps = 0 := by decide
    have hp : Int.tdiv phase_time num_time_steps = 1 := by decide
    simp [clampTickSleep, hq, hp]

/-- Witness of C19: step 7 with `phase_koef = 3`, `phase_time = 1000` and 500 steps. -/
theorem fixed_tick_interval_witness :
    (0 : Int) ≤ 3 ∧ (3 : Int) < 500 ∧
    tickSleep 7 = 1 ∧
    clampTickSleep 7 3 1000 500 = Int.tdiv 1000 500 ∧
    clampTickSleep 7 phase_koef phase_time num_time_steps = 1 :=
  ⟨by decide, by decide, fixed_tick_interval 7 3 1000 500 (by decide) (by decide)⟩

/-- C20. The joint index map: the twenty enumerators of `JointIndex` have pairwise
different values, which are exactly 0 to 19, and `toFin` is that value; the nine
entries of `arm_joints` are pairwise different, below 20 and none is `kNotUsedJoint`,
whose value is 9. Hence the loop that writes the nine joint commands leaves the
authority slot as it was and leaves in the slot of each joint the command of that
joint. -/
theorem joint_index_map :
    JointIndex.all.length = 20 ∧
    (∀ idx : JointIndex, idx ∈ JointIndex.all) ∧
    (JointIndex.all.map JointIndex.toNat).Nodup ∧
    Function.Injective JointIndex.toNat ∧
    (∀ idx : JointIndex, idx.toNat < 20 ∧ idx.toFin.val = idx.toNat) ∧
    (∀ n, n < 20 → ∃ idx ∈ JointIndex.all, idx.toNat = n) ∧
    JointIndex.kNotUsedJoint.toNat = 9 ∧
    Function.Injective arm_joints ∧
    (∀ j : Fin 9, (arm_joints j).toNat < 20 ∧ arm_joints j ≠ JointIndex.kNotUsedJoint) ∧
    (∀ (pose : Pose ℚ) (msg : LowCmd ℚ),
      authority ((List.finRange 9).foldl (packStep arm_joints pose) msg) = authority msg ∧
      ∀ j, setpoint arm_joints ((List.finRange 9).foldl (packStep arm_joints pose) msg) j
        = pose j) ∧
    (∀ (initial_jpos deltas cur : Pose ℚ) (s : ℚ) (msg : LowCmd ℚ),
      authority ((List.finRange 9).foldl (jointStep arm_joints initial_jpos deltas s)
          (cur, msg)).2 = authority msg ∧
      ∀ j, setpoint arm_joints ((List.finRange 9).foldl
          (jointStep arm_joints initial_jpos deltas s) (cur, msg)).2 j
        = initial_jpos j + deltas j * s) := by
  have hmem : ∀ idx : JointIndex, idx ∈ JointIndex.all := by
    intro idx
    cases idx <;> decide
  have hnodup : (JointIndex.all.map JointIndex.toNat).Nodup := by decide
  refine ⟨rfl, hmem, hnodup, ?_, ?_, by decide, rfl, ?_, by decide, ?_, ?_⟩
  · intro a b hab
    exact List.inj_on_of_nodup_map hnodup (hmem a) (hmem b) hab
  · intro idx
    cases idx <;> exact ⟨by decide, rfl⟩
  · intro a b hab
    exact arm_joints_injective (congrArg JointIndex.toFin hab)
  · intro pose msg
    refine ⟨?_, ?_⟩
    · simp only [authority]
      rw [packFold_of_not_mem arm_joints pose _ msg _ (fun j _ => arm_joints_ne_notUsed j)]
    · intro j
      simp only [setpoint]
      rw [packFold_of_mem arm_joints arm_joints_injective pose _ msg j (List.mem_finRange j)]
  · intro initial_jpos deltas cur s msg
    refine ⟨?_, ?_⟩
    · simp only [authority]
      rw [jointFold_snd_of_not_mem arm_joints initial_jpos deltas s _ _ _
        (fun j _ => arm_joints_ne_notUsed j)]
    · intro j
      simp only [setpoint]
      rw [jointFold_snd_of_mem arm_joints initial_jpos deltas s arm_joints_injective _ _ j
        (List.mem_finRange j)]

/-- C21. Frame of `updateJointPositions`: for every call (any `N`, target, exponent,
`start_stop`) and every prior message, in every frame `i < N` that the call writes each
slot that is neither the slot of one of the nine `arm_joints` nor `kNotUsedJoint` holds
what it held before the call, and the fields `dq`, `kp`, `kd` and `tau` of the slot
`kNotUsedJoint` hold what they held before the call: of that slot only `q` is written. -/
theorem legs_never_commanded (pow : K → K → K) (N : Int) (target cur : Pose K) (e : K)
    (msg : LowCmd K) (start_stop : Int) (i : Nat) (hi : (i : Int) < N) :
    ∃ f, (updateJointPositions pow N target cur e msg arm_joints start_stop).written[i]?
          = some f ∧
      (∀ k : Fin 20, (∀ j, k ≠ (arm_joints j).toFin) → k ≠ JointIndex.kNotUsedJoint.toFin →
        f k = msg k) ∧
      (f JointIndex.kNotUsedJoint.toFin).dq = (msg JointIndex.kNotUsedJoint.toFin).dq ∧
      (f JointIndex.kNotUsedJoint.toFin).kp = (msg JointIndex.kNotUsedJoint.toFin).kp ∧
      (f JointIndex.kNotUsedJoint.toFin).kd = (msg JointIndex.kNotUsedJoint.toFin).kd ∧
      (f JointIndex.kNotUsedJoint.toFin).tau = (msg JointIndex.kNotUsedJoint.toFin).tau := by
  refine ⟨_, updateJointPositions_frame pow N target cur e msg arm_joints start_stop i
    (by omega), ?_, ?_⟩
  · intro k hk hk9
    rw [← ticks_succ, ticks_other_slot pow N _ _ e arm_joints start_stop _ k hk hk9]
  · rw [← ticks_succ]
    exact ticks_notUsed_fields pow N _ _ e arm_joints arm_joints_ne_notUsed start_stop _ _

/-- Witness of C21: frame 3 of the shutdown call of `test.cpp`; the slot of
`kRightHipRoll`, index 0, is one of the slots of the legs. -/
theorem legs_never_commanded_witness :
    ((3 : Nat) : Int) < 400 ∧ (∀ j, (0 : Fin 20) ≠ (arm_joints j).toFin) ∧
    (0 : Fin 20) ≠ JointIndex.kNotUsedJoint.toFin ∧
    ∃ f, (updateJointPositions (fun x y : ℝ => x ^ y) 400 target_pos8 (fun _ => 0) (6 / 5)
            zeroCmd arm_joints 2).written[3]? = some f ∧
      f 0 = (zeroCmd : LowCmd ℝ) 0 ∧
      (f JointIndex.kNotUsedJoint.toFin).dq
        = ((zeroCmd : LowCmd ℝ) JointIndex.kNotUsedJoint.toFin).dq := by
  obtain ⟨f, hf, hk, hdq, _⟩ := legs_never_commanded (fun x y : ℝ => x ^ y) 400 target_pos8
    (fun _ => 0) (6 / 5) zeroCmd 2 3 (by decide)
  exact ⟨by decide, by decide, by decide, f, hf, hk 0 (by decide) (by decide), hdq⟩

/-- C22, as stated, fails on `float`: a call of 500 steps with exponent `1.0f` from the
`float` 1.5826477 towards the `float` -1.4695859 ends, for joint 0, at
`-12327781 / 2 ^ 23 = -1.4695860`, which lies below the target and so outside the
interval between the target and the start. -/
theorem overshoot_rounding_counterexample :
    round32 (13276211 / 8388608) = 13276211 / 8388608 ∧
    round32 (-(3081945 / 2097152)) = -(3081945 / 2097152) ∧
    ((updateJointPositionsR round32 (fun t _ => t) 500 (fun _ => -(3081945 / 2097152))
        (fun _ => 13276211 / 8388608) 1 zeroCmd arm_joints 0).written.getLast?).map
        (fun f : LowCmd ℚ => setpoint arm_joints f 0) = some (-(12327781 / 8388608)) ∧
    (-(12327781 / 8388608) : ℚ) < -(3081945 / 2097152) ∧
    (-(3081945 / 2097152) : ℚ) ≤ 13276211 / 8388608 := by
  have hdiv : round32 (((500 : Int) - 1 : Int) : ℚ) ≠ 0 := by
    rw [show ((((500 : Int) - 1 : Int)) : ℚ) = 499 by norm_num, round32_499]
    norm_num
  have ht := easeTR_last round32 round32_one 500 (by decide) hdiv
  refine ⟨fl_start_158, fl_target_146, ?_, by norm_num, by norm_num⟩
  rw [updateJointPositionsR_last _ _ 500 (by decide),
    updateJointPositionsR_setpoint _ _ 500 _ _ _ _ _ arm_joints_injective 0
      ((500 : Int) - 1).toNat (by decide) 0, ht]
  simp only [mul_one, round32_idem]
  rw [fl_delta_158, fl_arrival_158]

/-- C22, amended. On `float` (a monotone, idempotent rounding `rnd` that fixes 0 and 1
and moves `x` by at most `err x`), with a `pow` that maps `[0, 1]` into `[0, 1]` and
does not decrease there, and a start pose of `float` values: for steps `i ≤ i2 < N`, the
positions `p` and `p2` that frames `i` and `i2` carry for joint `j` lie between
`segmentStart[j]` and the arrival value `rnd (segmentStart[j] + rnd (target[j] -
segmentStart[j]))`, the distance to the arrival value does not grow from `i` to `i2`,
the arrival value differs from the target by at most the two rounding errors, and a
joint with `target[j] = segmentStart[j]` holds that value. -/
theorem easedPower_bounded_rounded (rnd : K → K) (hmono : Monotone rnd)
    (hidem : ∀ x, rnd (rnd x) = rnd x) (h0 : rnd 0 = 0) (h1 : rnd 1 = 1)
    (err : K → K) (herr : ∀ x, |rnd x - x| ≤ err x) (pow : K → K → K) (exponent : K)
    (hpow : ∀ t t2, 0 ≤ t → t ≤ t2 → t2 ≤ 1 →
      0 ≤ pow t exponent ∧ pow t exponent ≤ pow t2 exponent ∧ pow t2 exponent ≤ 1)
    (N : Int) (target segmentStart : Pose K)
    (hstart : ∀ j, rnd (segmentStart j) = segmentStart j) (msg : LowCmd K)
    (aj : Fin 9 → JointIndex) (hinj : Function.Injective (fun j => (aj j).toFin))
    (start_stop : Int) (i i2 : Nat) (hi : i ≤ i2) (hi2 : (i2 : Int) < N) (j : Fin 9) :
    ∃ p p2 : K,
      ((updateJointPositionsR rnd pow N target segmentStart exponent msg aj
          start_stop).written[i]?).map (fun f => setpoint aj f j) = some p ∧
      ((updateJointPositionsR rnd pow N target segmentStart exponent msg aj
          start_stop).written[i2]?).map (fun f => setpoint aj f j) = some p2 ∧
      min (segmentStart j) (rnd (segmentStart j + rnd (target j - segmentStart j))) ≤ p ∧
      p ≤ max (segmentStart j) (rnd (segmentStart j + rnd (target j - segmentStart j))) ∧
      |rnd (segmentStart j + rnd (target j - segmentStart j)) - p2|
        ≤ |rnd (segmentStart j + rnd (target j - segmentStart j)) - p| ∧
      |rnd (segmentStart j + rnd (target j - segmentStart j)) - target j|
        ≤ err (segmentStart j + rnd (target j - segmentStart j))
          + err (target j - segmentStart j) ∧
      (target j = segmentStart j → p = segmentStart j) := by
  have ht := easeTR_mem rnd hmono h0 h1 N i (by omega)
  have ht2 := easeTR_mem rnd hmono h0 h1 N i2 hi2
  have htt := easeTR_mono rnd hmono h1 N i i2 hi
  have hp := hpow _ _ ht.1 htt ht2.2
  have hdd : rnd (rnd (target j - segmentStart j)) = rnd (target j - segmentStart j) :=
    hidem _
  have herr2 : |rnd (segmentStart j + rnd (target j - segmentStart j)) - target j|
      ≤ err (segmentStart j + rnd (target j - segmentStart j))
        + err (target j - segmentStart j) := by
    have e : rnd (segmentStart j + rnd (target j - segmentStart j)) - target j
        = (rnd (segmentStart j + rnd (target j - segmentStart j))
            - (segmentStart j + rnd (target j - segmentStart j)))
          + (rnd (target j - segmentStart j) - (target j - segmentStart j)) := by
      ring
    rw [e]
    exact (abs_add _ _).trans (add_le_add (herr _) (herr _))
  have hhold : target j = segmentStart j →
      rnd (segmentStart j + rnd (rnd (target j - segmentStart j)
        * pow (easeTR rnd N i) exponent)) = segmentStart j := by
    intro h
    rw [h, sub_self, h0, zero_mul, h0, add_zero, hstart]
  refine ⟨_, _,
    updateJointPositionsR_setpoint rnd pow N target segmentStart exponent msg aj hinj start_stop
      i (by omega) j,
    updateJointPositionsR_setpoint rnd pow N target segmentStart exponent msg aj hinj start_stop
      i2 hi2 j, ?_⟩
  rcases le_total 0 (rnd (target j - segmentStart j)) with hd | hd
  · obtain ⟨a, b, c⟩ := blendR_up rnd hmono h0 (segmentStart j) _ _ _ hd hp.1 hp.2.1 hp.2.2
      (hstart j) hdd
    have hA := a.trans (b.trans c)
    refine ⟨?_, ?_, ?_, herr2, hhold⟩
    · rw [min_eq_left hA]
      exact a
    · rw [max_eq_right hA]
      exact b.trans c
    · rw [abs_of_nonneg (sub_nonneg.2 c), abs_of_nonneg (sub_nonneg.2 (b.trans c))]
      linarith
  · obtain ⟨a, b, c⟩ := blendR_down rnd hmono h0 (segmentStart j) _ _ _ hd hp.1 hp.2.1 hp.2.2
      (hstart j) hdd
    have hA := (c.trans b).trans a
    refine ⟨?_, ?_, ?_, herr2, hhold⟩
    · rw [min_eq_right hA]
      exact c.trans b
    · rw [max_eq_left hA]
      exact a
    · rw [abs_of_nonpos (sub_nonpos.2 c), abs_of_nonpos (sub_nonpos.2 (c.trans b))]
      linarith

/-- Witness of C22, amended: binary32, exponent 1, 500 steps from the zero pose towards
`target_pos8`, frames 3 and 499, joint 0. -/
theorem easedPower_bounded_rounded_witness :
    Monotone round32 ∧ (∀ x, round32 (round32 x) = round32 x) ∧ round32 0 = 0 ∧
    round32 1 = 1 ∧ (∀ x, |round32 x - x| ≤ (fun y => ulp32 |y| / 2) x) ∧
    (∀ t t2 : ℚ, 0 ≤ t → t ≤ t2 → t2 ≤ 1 →
      0 ≤ (fun a _ => a : ℚ → ℚ → ℚ) t 1 ∧
      (fun a _ => a : ℚ → ℚ → ℚ) t 1 ≤ (fun a _ => a : ℚ → ℚ → ℚ) t2 1 ∧
      (fun a _ => a : ℚ → ℚ → ℚ) t2 1 ≤ 1) ∧
    (∀ j : Fin 9, round32 ((fun _ => (0 : ℚ)) j) = (fun _ => (0 : ℚ)) j) ∧
    Function.Injective (fun j => (arm_joints j).toFin) ∧ 3 ≤ 499 ∧ ((499 : Nat) : Int) < 500 ∧
    ∃ p p2 : ℚ,
      ((updateJointPositionsR round32 (fun a _ => a) 500 (toFloat target_pos8) (fun _ => 0) 1
          zeroCmd arm_joints 1).written[3]?).map (fun f => setpoint arm_joints f 0) = some p ∧
      ((updateJointPositionsR round32 (fun a _ => a) 500 (toFloat target_pos8) (fun _ => 0) 1
          zeroCmd arm_joints 1).written[499]?).map (fun f => setpoint arm_joints f 0)
        = some p2 ∧
      min 0 (round32 (0 + round32 (toFloat target_pos8 0 - 0))) ≤ p ∧
      p ≤ max 0 (round32 (0 + round32 (toFloat target_pos8 0 - 0))) ∧
      |round32 (0 + round32 (toFloat target_pos8 0 - 0)) - p2|
        ≤ |round32 (0 + round32 (toFloat target_pos8 0 - 0)) - p| ∧
      |round32 (0 + round32 (toFloat target_pos8 0 - 0)) - toFloat target_pos8 0|
        ≤ ulp32 |0 + round32 (toFloat target_pos8 0 - 0)| / 2
          + ulp32 |toFloat target_pos8 0 - 0| / 2 ∧
      (toFloat target_pos8 0 = 0 → p = 0) :=
  ⟨round32_mono, round32_idem, round32_zero, round32_one, round32_err,
    fun _ _ a b c => ⟨a, b, c⟩, fun _ => round32_zero, arm_joints_injective, by decide,
    by decide,
    easedPower_bounded_rounded round32 round32_mono round32_idem round32_zero round32_one
      (fun y => ulp32 |y| / 2) round32_err (fun a _ => a) 1 (fun _ _ a b c => ⟨a, b, c⟩) 500
      (toFloat target_pos8) (fun _ => 0) (fun _ => round32_zero) zeroCmd arm_joints
      arm_joints_injective 1 3 499 (by decide) (by decide) 0⟩

end Claims

end ControlRobot
